import Mathlib

/-!
Verification of the sparse linear Gaussian elimination engine of
`LinearFactorGraph` (a factor graph whose factors are Gaussian potentials).

The repository ships only the interface header `cpp/LinearFactorGraph.h`;
all algorithmic bodies (combine, single-variable elimination, full and
partial ordered elimination, back-substitution, prior synthesis, dense
assembly) are specified in the accompanying design document.  Every
definition below whose body is not literally dictated by the header is
therefore marked `Modelled from the spec:` and follows the specification
text.

Numeric scalars are modelled by an arbitrary field `F` with decidable
equality, standing for exact real arithmetic (the specification states its
numeric properties "within floating tolerance"; the model replaces floating
point by exact field arithmetic).  A small concrete field `K` (the field
with five elements) is provided so that the algorithms can be executed
inside the kernel on concrete inputs.
-/

namespace GtsamLin

/-- Small concrete field used to run the algorithms on concrete inputs:
the integers modulo 5, with a table-based multiplicative inverse so that
every field operation reduces inside the kernel. -/
def K : Type := Fin 5

instance : CommRing K := inferInstanceAs (CommRing (Fin 5))

instance : DecidableEq K := inferInstanceAs (DecidableEq (Fin 5))

instance : Fintype K := inferInstanceAs (Fintype (Fin 5))

/-- Multiplicative inverse on `K`, given by table lookup. -/
def kinv : K → K := fun a =>
  match (a : Fin 5) with
  | 0 => (0 : Fin 5)
  | 1 => (1 : Fin 5)
  | 2 => (3 : Fin 5)
  | 3 => (2 : Fin 5)
  | 4 => (4 : Fin 5)

instance : Inv K := ⟨kinv⟩

instance : Div K := ⟨fun a b => a * kinv b⟩

instance : Field K :=
  { (inferInstance : CommRing K), (inferInstance : Inv K), (inferInstance : Div K) with
    div_eq_mul_inv := fun _ _ => rfl
    exists_pair_ne := ⟨(0 : Fin 5), (1 : Fin 5), by decide⟩
    mul_inv_cancel := by decide
    inv_zero := by decide
    nnqsmul := _
    qsmul := _ }

variable {F : Type} [Field F] [DecidableEq F]

/-- Sum of `f 0 + f 1 + ... + f (d-1)`: a block of `d` coordinates. -/
def rsum (d : ℕ) (f : ℕ → F) : F := ((List.range d).map f).sum

/-- Sum over the coordinates of a list of (key, dimension) pairs:
for each pair, the inner sum ranges over the indices below the dimension. -/
def ksum (l : List (String × ℕ)) (f : String → ℕ → F) : F :=
  (l.map (fun p => rsum p.2 (f p.1))).sum

/-- Error kinds of the elimination engine, as listed in the spec. -/
inductive ElimErr where
  | UnknownVariable
  | DimensionConflict
  | IncompleteOrdering
  | SingularElimination
deriving DecidableEq

/-- A configuration of vectors: one numeric vector per key
(entries beyond a variable's dimension are irrelevant). -/
def VectorConfig (F : Type) : Type := String → ℕ → F

/-- Modelled from the spec: a Gaussian factor over an ordered set of
(key, dimension) pairs.  `rows` is the measurement form `‖A x − b‖²` used
for factors built by the caller (`m` rows, block columns indexed by key and
in-block index); `info` is the information form
`xᵀ L x − 2 eᵀ x + c` in which combined joints and elimination residuals
(Schur complements) are produced.  The header only declares
`LinearFactor`; both parameterizations represent the Gaussian potential the
spec describes. -/
inductive LinearFactor (F : Type) where
  | rows (keys : List (String × ℕ)) (m : ℕ) (A : ℕ → String → ℕ → F) (b : ℕ → F)
  | info (keys : List (String × ℕ)) (L : String → String → ℕ → ℕ → F) (e : String → ℕ → F) (c : F)

/-- The (key, dimension) pairs a factor references. -/
def LinearFactor.keys : LinearFactor F → List (String × ℕ)
  | .rows ks _ _ _ => ks
  | .info ks _ _ _ => ks

/-- The key names a factor references. -/
def LinearFactor.keyNames (f : LinearFactor F) : List String := f.keys.map Prod.fst

/-- Information matrix block of a factor: for measurement form this is
`Aᵀ A` written blockwise, for information form it is stored directly. -/
def LinearFactor.infoL : LinearFactor F → String → String → ℕ → ℕ → F
  | .rows _ m A _ => fun i j a b => rsum m (fun r => A r i a * A r j b)
  | .info _ L _ _ => L

/-- Information vector block of a factor (`Aᵀ b` for measurement form). -/
def LinearFactor.infoe : LinearFactor F → String → ℕ → F
  | .rows _ m A b => fun i a => rsum m (fun r => A r i a * b r)
  | .info _ _ e _ => e

/-- Constant term of a factor (`bᵀ b` for measurement form). -/
def LinearFactor.infoc : LinearFactor F → F
  | .rows _ m _ b => rsum m (fun r => b r * b r)
  | .info _ _ _ c => c

/-- Number of measurement rows of a factor (`0` for information form). -/
def LinearFactor.mRows : LinearFactor F → ℕ
  | .rows _ m _ _ => m
  | .info _ _ _ _ => 0

/-- Measurement rows of a factor (`0` for information form). -/
def LinearFactor.rowA : LinearFactor F → ℕ → String → ℕ → F
  | .rows _ _ A _ => A
  | .info _ _ _ _ => fun _ _ _ => 0

/-- Measurement right-hand side of a factor (`0` for information form). -/
def LinearFactor.rowB : LinearFactor F → ℕ → F
  | .rows _ _ _ b => b
  | .info _ _ _ _ => fun _ => 0

/-- Quadratic part of a potential over the given key blocks. -/
def quadForm (ks : List (String × ℕ)) (L : String → String → ℕ → ℕ → F)
    (x y : VectorConfig F) : F :=
  ksum ks (fun i a => ksum ks (fun j b => x i a * L i j a b * y j b))

/-- Linear part of a potential over the given key blocks. -/
def linForm (ks : List (String × ℕ)) (e : String → ℕ → F) (y : VectorConfig F) : F :=
  ksum ks (fun j b => e j b * y j b)

/-- The Gaussian potential (negative log-density up to scale) a factor
assigns to an assignment: `xᵀ L x − 2 eᵀ x + c`.  For a measurement-form
factor this equals `‖A x − b‖²`. -/
def LinearFactor.energy (f : LinearFactor F) (x : VectorConfig F) : F :=
  quadForm f.keys f.infoL x x - 2 * linForm f.keys f.infoe x + f.infoc

/-- A Linear Factor Graph: a multiset (list) of Gaussian factors. -/
structure LinearFactorGraph (F : Type) where
  factors : List (LinearFactor F)

/-- Total energy of a graph: the sum of its factors' potentials. -/
def graphEnergy (g : LinearFactorGraph F) (x : VectorConfig F) : F :=
  (g.factors.map (fun f => f.energy x)).sum

/-- The factors of `g` that reference `key`. -/
def touching (g : LinearFactorGraph F) (key : String) : List (LinearFactor F) :=
  g.factors.filter (fun f => key ∈ f.keyNames)

/-- Remove from `g` every factor referencing `key`. -/
def removeKey (g : LinearFactorGraph F) (key : String) : LinearFactorGraph F :=
  ⟨g.factors.filter (fun f => key ∉ f.keyNames)⟩

/-- Generic first-occurrence deduplication by a string-valued key, keeping
elements whose key is not among `seen` and not seen earlier in the list. -/
def dedupBy {α : Type} (key : α → String) : List String → List α → List α
  | _, [] => []
  | seen, a :: rest =>
    if key a ∈ seen then dedupBy key seen rest
    else a :: dedupBy key (key a :: seen) rest

/-- All (key, dimension) pairs referenced by the graph, with repetitions. -/
def pairsOf (g : LinearFactorGraph F) : List (String × ℕ) :=
  g.factors.flatMap LinearFactor.keys

/-- The distinct variable names of the graph, in first-reference order. -/
def varKeys (g : LinearFactorGraph F) : List String :=
  dedupBy id [] (g.factors.flatMap LinearFactor.keyNames)

/-- Dimension consistency: any two references to a key agree on its dimension. -/
def DimConsistent (l : List (String × ℕ)) : Prop :=
  ∀ p ∈ l, ∀ q ∈ l, p.1 = q.1 → p.2 = q.2

instance (l : List (String × ℕ)) : Decidable (DimConsistent l) := by
  unfold DimConsistent; infer_instance

/-- Modelled from the spec: the Variable Registry view.  Scans all factors,
deduplicates by key and checks dimension consistency, failing with
`DimensionConflict` when two factors disagree on a dimension
(the body of `LinearFactorGraph::variables` is not in the header). -/
def LinearFactorGraph.variables (g : LinearFactorGraph F) :
    Except ElimErr (List (String × ℕ)) :=
  if DimConsistent (pairsOf g) then .ok (dedupBy Prod.fst [] (pairsOf g))
  else .error .DimensionConflict

/-- Modelled from the spec: find the separator of `key`, i.e. all nodes
sharing at least one factor with it (header doc of `find_separator`). -/
def LinearFactorGraph.find_separator (g : LinearFactorGraph F) (key : String) :
    List String :=
  dedupBy id [] (((touching g key).flatMap LinearFactor.keyNames).filter (fun k => k ≠ key))

/-- Modelled from the spec: atomically remove and return all factors
involving `key` (header doc of `find_factors_and_remove`); the mutated
graph is returned as the second component. -/
def LinearFactorGraph.find_factors_and_remove (g : LinearFactorGraph F) (key : String) :
    List (LinearFactor F) × LinearFactorGraph F :=
  (touching g key, removeKey g key)

/-- Dimension of `key` as recorded by the first factor referencing it. -/
def dimLookup (fs : List (LinearFactor F)) (key : String) : ℕ :=
  (((fs.flatMap LinearFactor.keys).find? (fun p => p.1 == key)).map Prod.snd).getD 0

/-- Separator (key, dimension) pairs of a factor set with respect to `key`:
all other referenced pairs, deduplicated by key (first occurrence). -/
def sepPairs (fs : List (LinearFactor F)) (key : String) : List (String × ℕ) :=
  dedupBy Prod.fst [] ((fs.flatMap LinearFactor.keys).filter (fun p => p.1 ≠ key))

/-- Modelled from the spec: combine a set of factors into the joint
potential over `key` and its separator, by information-form addition
(spec 4.2: combination MUST happen by commutative/associative
information-form addition).  The eliminated key is listed first. -/
def combineList (fs : List (LinearFactor F)) (key : String) : LinearFactor F :=
  .info ((key, dimLookup fs key) :: sepPairs fs key)
    (fun i j a b => (fs.map (fun f => f.infoL i j a b)).sum)
    (fun i a => (fs.map (fun f => f.infoe i a)).sum)
    ((fs.map LinearFactor.infoc).sum)

/-- Modelled from the spec: extract and combine all factors involving
`key` (header: `combine_factors` = `find_factors_and_remove` followed by
combination; spec 4.1: fails with `UnknownVariable` when no factor
references `key`). -/
def LinearFactorGraph.combine_factors (g : LinearFactorGraph F) (key : String) :
    Except ElimErr (LinearFactor F × LinearFactorGraph F) :=
  if (touching g key).isEmpty then .error .UnknownVariable
  else .ok (combineList (touching g key) key, removeKey g key)

/-- Bounded matrix product of two square blocks of size `d`. -/
def matMulB (d : ℕ) (M N : ℕ → ℕ → F) : ℕ → ℕ → F :=
  fun a b => rsum d (fun c => M a c * N c b)

/-- Identity block. -/
def idMat : ℕ → ℕ → F := fun a b => if a = b then (1 : F) else 0

/-- `M` is a two-sided inverse of `H` on the block of size `d`. -/
def IsInvPair (d : ℕ) (H M : ℕ → ℕ → F) : Prop :=
  (∀ a < d, ∀ b < d, matMulB d M H a b = idMat a b) ∧
  (∀ a < d, ∀ b < d, matMulB d H M a b = idMat a b)

instance (d : ℕ) (H M : ℕ → ℕ → F) : Decidable (IsInvPair d H M) := by
  unfold IsInvPair; infer_instance

/-- Augmented matrix `[H | I]` of a `d × d` block, as a list of rows. -/
def augRows (d : ℕ) (H : ℕ → ℕ → F) : List (List F) :=
  (List.range d).map
    (fun i => (List.range d).map (H i) ++ (List.range d).map (fun j => idMat i j))

/-- Index of the first row at or below `j` whose entry in column `j` is nonzero. -/
def findPivot (R : List (List F)) (j : ℕ) : Option ℕ :=
  ((List.range R.length).filter
    (fun i => decide (j ≤ i ∧ (R.getD i []).getD j 0 ≠ 0))).head?

/-- Exchange rows `i` and `j`. -/
def swapRows (R : List (List F)) (i j : ℕ) : List (List F) :=
  (List.range R.length).map
    (fun r => if r = i then R.getD j [] else if r = j then R.getD i [] else R.getD r [])

/-- One Gauss-Jordan pivot step on column `j`: bring a nonzero pivot to the
diagonal, scale its row to make the pivot 1 and clear the column elsewhere. -/
def pivotStep (R : List (List F)) (j : ℕ) : Option (List (List F)) :=
  match findPivot R j with
  | none => none
  | some i =>
    let R1 := swapRows R i j
    let prow := R1.getD j []
    let piv := prow.getD j 0
    let prow1 := prow.map (fun x => piv⁻¹ * x)
    some ((List.range R1.length).map (fun r =>
      if r = j then prow1
      else
        (List.range ((R1.getD r []).length)).map
          (fun cc => (R1.getD r []).getD cc 0 - ((R1.getD r []).getD j 0) * prow1.getD cc 0)))

/-- Run pivot steps on the given columns in order. -/
def gjAux (R : List (List F)) : List ℕ → Option (List (List F))
  | [] => some R
  | j :: js =>
    match pivotStep R j with
    | none => none
    | some R1 => gjAux R1 js

/-- Gauss-Jordan candidate inverse of a `d × d` block: reduce `[H | I]` and
read off the right half.  The candidate is validated by `pivotInverse`. -/
def gjCandidate (d : ℕ) (H : ℕ → ℕ → F) : Option (ℕ → ℕ → F) :=
  (gjAux (augRows d H) (List.range d)).map
    (fun R => fun a b => (R.getD a []).getD (d + b) 0)

/-- Modelled from the spec: inversion of the pivot block of one elimination
step.  A candidate inverse is computed by Gauss-Jordan reduction and then
validated by multiplication; the step reports failure (and the caller
raises `SingularElimination`) exactly when no validated inverse is
produced — a singular block admits no inverse, so it can never pass the
validation, which is the "never silently regularized" requirement. -/
def pivotInverse (d : ℕ) (H : ℕ → ℕ → F) : Option (ℕ → ℕ → F) :=
  match gjCandidate d H with
  | none => none
  | some M => if IsInvPair d H M then some M else none

/-- Modelled from the spec: the conditional distribution
P(key | separator) produced by eliminating `key`: the eliminated key, its
dimension, the ordered parent (separator) pairs, and the affine
coefficients of the conditional mean
`μ(x) = Hinv (rhs − S x_parents)` together with the pivot block `H`. -/
structure ConditionalGaussian (F : Type) where
  key : String
  dim : ℕ
  parents : List (String × ℕ)
  H : ℕ → ℕ → F
  Hinv : ℕ → ℕ → F
  rhs : ℕ → F
  S : ℕ → String → ℕ → F

/-- The conditional mean of the eliminated variable given parent values. -/
def condMean (cg : ConditionalGaussian F) (x : VectorConfig F) (a : ℕ) : F :=
  rsum cg.dim
    (fun b => cg.Hinv a b * (cg.rhs b - ksum cg.parents (fun j c => cg.S b j c * x j c)))

/-- Point update of a configuration at one key. -/
def updateKey (x : VectorConfig F) (k : String) (v : ℕ → F) : VectorConfig F :=
  fun j => if j = k then v else x j

/-- Modelled from the spec (4.4): back-substitution processes the
conditionals in reverse elimination order, solving each variable from its
conditional mean at the already-solved parents, starting from the empty
(zero) configuration. -/
def backSubstitute (cbn : List (ConditionalGaussian F)) : VectorConfig F :=
  cbn.foldr (fun cg acc => updateKey acc cg.key (fun a => condMean cg acc a)) (fun _ _ => 0)

/-- Coordinate (i, a) lies in the blocks described by `l`. -/
def memCoord (l : List (String × ℕ)) (i : String) (a : ℕ) : Prop :=
  ∃ p ∈ l, p.1 = i ∧ a < p.2

instance (l : List (String × ℕ)) (i : String) (a : ℕ) : Decidable (memCoord l i a) := by
  unfold memCoord; infer_instance

/-- Dimension of the variable listed first in a combined joint factor
(the variable being eliminated). -/
def jointDim (joint : LinearFactor F) : ℕ := (joint.keys.headD ("", 0)).2

/-- The pivot information block of a joint factor at the eliminated key. -/
def pivotBlock (joint : LinearFactor F) (key : String) : ℕ → ℕ → F :=
  fun a b => joint.infoL key key a b

/-- The conditional built from a joint factor and a validated pivot
inverse: mean `μ(x) = Minv (e_key − S x_sep)`. -/
def mkConditional (joint : LinearFactor F) (key : String) (Minv : ℕ → ℕ → F) :
    ConditionalGaussian F :=
  ⟨key, jointDim joint, joint.keys.tail, pivotBlock joint key, Minv,
    fun a => joint.infoe key a, fun a j c => joint.infoL key j a c⟩

/-- The residual (Schur complement) factor of one elimination step,
supported on the separator blocks only. -/
def residualFactor (joint : LinearFactor F) (key : String) (d : ℕ) (Minv : ℕ → ℕ → F) :
    LinearFactor F :=
  .info joint.keys.tail
    (fun i j a b =>
      if memCoord joint.keys.tail i a ∧ memCoord joint.keys.tail j b then
        joint.infoL i j a b -
          rsum d (fun p => rsum d (fun q => joint.infoL i key a p * Minv p q * joint.infoL key j q b))
      else 0)
    (fun i a =>
      if memCoord joint.keys.tail i a then
        joint.infoe i a -
          rsum d (fun p => rsum d (fun q => joint.infoL i key a p * Minv p q * joint.infoe key q))
      else 0)
    (joint.infoc - rsum d (fun p => rsum d (fun q => joint.infoe key p * Minv p q * joint.infoe key q)))

/-- Modelled from the spec (4.3): eliminate one node.  Removes the factors
involving `key`, combines them into the joint, splits the joint into the
conditional of `key` given the separator and the residual (Schur
complement) factor over the separator only, re-adds the residual to the
graph and returns the conditional.  Fails with `SingularElimination` when
the pivot block admits no validated inverse. -/
def LinearFactorGraph.eliminate_one (g : LinearFactorGraph F) (key : String) :
    Except ElimErr (ConditionalGaussian F × LinearFactorGraph F) :=
  match g.combine_factors key with
  | .error er => .error er
  | .ok (joint, rest) =>
    match pivotInverse (jointDim joint) (pivotBlock joint key) with
    | none => .error .SingularElimination
    | some Minv =>
      .ok (mkConditional joint key Minv,
        ⟨rest.factors ++ [residualFactor joint key (jointDim joint) Minv]⟩)

/-- Apply `eliminate_one` for each key of the list in order, collecting the
conditionals in elimination order and threading the mutated graph. -/
def eliminateSeq (g : LinearFactorGraph F) :
    List String → Except ElimErr (List (ConditionalGaussian F) × LinearFactorGraph F)
  | [] => .ok ([], g)
  | k :: ks =>
    match g.eliminate_one k with
    | .error er => .error er
    | .ok (cg, g1) =>
      match eliminateSeq g1 ks with
      | .error er => .error er
      | .ok (cgs, g2) => .ok (cg :: cgs, g2)

/-- The ordering covers every variable of the graph. -/
def covers (g : LinearFactorGraph F) (ord : List String) : Prop :=
  ∀ k ∈ varKeys g, k ∈ ord

instance (g : LinearFactorGraph F) (ord : List String) : Decidable (covers g ord) := by
  unfold covers; infer_instance

/-- Modelled from the spec (4.3): full elimination requires a complete
ordering and fails with `IncompleteOrdering` otherwise; on a complete
ordering it applies `eliminate_one` for each key in sequence. -/
def LinearFactorGraph.eliminate (g : LinearFactorGraph F) (ord : List String) :
    Except ElimErr (List (ConditionalGaussian F) × LinearFactorGraph F) :=
  if covers g ord then eliminateSeq g ord else .error .IncompleteOrdering

/-- Modelled from the spec (4.3): partial elimination is the same step
sequence without the completeness requirement. -/
def eliminate_partially (g : LinearFactorGraph F) (ord : List String) :
    Except ElimErr (List (ConditionalGaussian F) × LinearFactorGraph F) :=
  eliminateSeq g ord

/-- Modelled from the spec (4.3): optimize = full elimination followed by
back-substitution of the resulting chordal Bayes net, with the same
completeness requirement and the same in-place mutation of the graph. -/
def LinearFactorGraph.optimize (g : LinearFactorGraph F) (ord : List String) :
    Except ElimErr (VectorConfig F × LinearFactorGraph F) :=
  if covers g ord then
    match eliminateSeq g ord with
    | .error er => .error er
    | .ok (cbn, g1) => .ok (backSubstitute cbn, g1)
  else .error .IncompleteOrdering

/-- Modelled from the spec (4.1): the zero-mean unary Gaussian prior factor
with standard deviation `sigma` for one variable: `d` measurement rows
`(1/sigma) x_k = 0`. -/
def priorFactor (sigma : F) (k : String) (d : ℕ) : LinearFactor F :=
  .rows [(k, d)] d
    (fun r j i => if j = k ∧ r = i ∧ i < d then sigma⁻¹ else 0)
    (fun _ => 0)

/-- Modelled from the spec (4.1): add one zero-mean unary Gaussian prior of
standard deviation `sigma` per variable of the graph; `const` in the
header already guarantees the receiver is returned unchanged, the result
being a new graph. -/
def LinearFactorGraph.add_priors (g : LinearFactorGraph F) (sigma : F) :
    LinearFactorGraph F :=
  ⟨g.factors ++ (dedupBy Prod.fst [] (pairsOf g)).map (fun p => priorFactor sigma p.1 p.2)⟩

/-- Column layout of the dense assembly: the ordering's keys with their
dimensions. -/
def colKeyDims (g : LinearFactorGraph F) (ord : List String) : List (String × ℕ) :=
  ord.map (fun k => (k, dimLookup g.factors k))

/-- Decode a flat column index into (key, in-block index) following the
contiguous block layout. -/
def colDecode : List (String × ℕ) → ℕ → Option (String × ℕ)
  | [], _ => none
  | p :: rest, c => if c < p.2 then some (p.1, c) else colDecode rest (c - p.2)

/-- Entry of the stacked measurement matrix: factors contribute their rows
in graph order. -/
def rowEntryA : List (LinearFactor F) → ℕ → String → ℕ → F
  | [], _, _, _ => 0
  | f :: fs, r, k, i => if r < f.mRows then f.rowA r k i else rowEntryA fs (r - f.mRows) k i

/-- Entry of the stacked right-hand side. -/
def rowEntryB : List (LinearFactor F) → ℕ → F
  | [], _ => 0
  | f :: fs, r => if r < f.mRows then f.rowB r else rowEntryB fs (r - f.mRows)

/-- Total number of stacked measurement rows. -/
def totalRows (g : LinearFactorGraph F) : ℕ := (g.factors.map LinearFactor.mRows).sum

/-- Total number of assembled columns for the given ordering. -/
def totalCols (g : LinearFactorGraph F) (ord : List String) : ℕ :=
  ((colKeyDims g ord).map Prod.snd).sum

/-- Modelled from the spec (4.5): the dense (matrix, right-hand side) pair
representing the same least-squares system, columns laid out by the
ordering with one contiguous block per variable. -/
def LinearFactorGraph.matrix (g : LinearFactorGraph F) (ord : List String) :
    (ℕ → ℕ → F) × (ℕ → F) :=
  (fun r c =>
      match colDecode (colKeyDims g ord) c with
      | some (k, i) => rowEntryA g.factors r k i
      | none => 0,
    fun r => rowEntryB g.factors r)

/-- The call-level embedding of the `const` member `variables()`: the
receiver state after the call is the receiver state before it. -/
def variablesRun (g : LinearFactorGraph F) :
    Except ElimErr (List (String × ℕ)) × LinearFactorGraph F :=
  (g.variables, g)

/-- The call-level embedding of the `const` member `matrix(ordering)`. -/
def matrixRun (g : LinearFactorGraph F) (ord : List String) :
    ((ℕ → ℕ → F) × (ℕ → F)) × LinearFactorGraph F :=
  (g.matrix ord, g)

/-- The call-level embedding of the `const` member `add_priors(sigma)`. -/
def add_priorsRun (g : LinearFactorGraph F) (sigma : F) :
    LinearFactorGraph F × LinearFactorGraph F :=
  (g.add_priors sigma, g)

/-- The call-level embedding of the `const` member `find_separator(key)`. -/
def find_separatorRun (g : LinearFactorGraph F) (key : String) :
    List String × LinearFactorGraph F :=
  (g.find_separator key, g)

/-- Well-formed factor: no duplicate keys, symmetric information matrix,
and information entries supported on the factor's own coordinate blocks. -/
def FactorWF (f : LinearFactor F) : Prop :=
  f.keyNames.Nodup ∧
  (∀ i j a b, f.infoL i j a b = f.infoL j i b a) ∧
  (∀ i j a b, f.infoL i j a b ≠ 0 → memCoord f.keys i a ∧ memCoord f.keys j b) ∧
  (∀ i a, f.infoe i a ≠ 0 → memCoord f.keys i a)

/-- Well-formed graph: all factors well formed, dimensions consistent. -/
def GraphWF (g : LinearFactorGraph F) : Prop :=
  (∀ f ∈ g.factors, FactorWF f) ∧ DimConsistent (pairsOf g)

/-- Measurement-form factor with rows supported on its own coordinate
blocks (the well-formedness of caller-supplied factors). -/
def RowsWF (f : LinearFactor F) : Prop :=
  match f with
  | .rows ks _ A _ => ∀ r k i, ¬ memCoord ks k i → A r k i = 0
  | .info _ _ _ _ => False

/-- The indicator configuration of a single coordinate. -/
def deltaV (k : String) (a : ℕ) : VectorConfig F :=
  fun j b => if j = k ∧ b = a then 1 else 0

/-- Boolean success of an elimination call. -/
def isOkE {A B : Type} : Except A B → Bool
  | .ok _ => true
  | .error _ => false

deriving instance DecidableEq for Except

/-- The (half-)gradient pairing of one factor: `xᵀ L y − eᵀ y`.  At a
point `x` with `factorGrad f x y = 0` for all `y`, `x` is stationary for
the factor's potential. -/
def factorGrad (f : LinearFactor F) (x y : VectorConfig F) : F :=
  quadForm f.keys f.infoL x y - linForm f.keys f.infoe y

/-- The (half-)gradient pairing of the whole graph at `x` against `y`. -/
def gradAt (g : LinearFactorGraph F) (x y : VectorConfig F) : F :=
  (g.factors.map (fun f => factorGrad f x y)).sum

/-- The triangularity invariant of a conditional chain: every conditional
precedes its parents, and keys are not repeated. -/
def ChainInv : List (ConditionalGaussian F) → Prop
  | [] => True
  | cg :: rest => cg.key ∉ rest.map ConditionalGaussian.key ∧
      (∀ p ∈ cg.parents, p.1 ∈ rest.map ConditionalGaussian.key) ∧ ChainInv rest

/-- The flat column vector corresponding to a configuration under the
contiguous block layout of `matrix(ordering)`. -/
def flatVec (g : LinearFactorGraph F) (ord : List String) (x : VectorConfig F) : ℕ → F :=
  fun c =>
    match colDecode (colKeyDims g ord) c with
    | some (k, i) => x k i
    | none => 0

/-- Concrete factor over `K`: unary prior `x = 1` on the 1-dimensional
variable `x`. -/
def fW : LinearFactor K :=
  .rows [("x", 1)] 1 (fun r j i => if j = "x" ∧ i = 0 ∧ r = 0 then 1 else 0) (fun _ => 1)

/-- Concrete one-variable graph over `K`. -/
def gW : LinearFactorGraph K := ⟨[fW]⟩

/-- Concrete binary factor over `K`: `x + 4 y = 2`. -/
def fW2 : LinearFactor K :=
  .rows [("x", 1), ("y", 1)] 1
    (fun r j i =>
      if r = 0 ∧ i = 0 then (if j = "x" then 1 else if j = "y" then 4 else 0) else 0)
    (fun _ => 2)

/-- Concrete two-variable graph over `K`. -/
def g2W : LinearFactorGraph K := ⟨[fW, fW2]⟩

/-- The same two-variable graph with the factors in swapped order. -/
def g2Wswap : LinearFactorGraph K := ⟨[fW2, fW]⟩

/-- Concrete rank-one factor on the 2-dimensional variable `x`. -/
def fsing : LinearFactor K :=
  .rows [("x", 2)] 1 (fun r j i => if j = "x" ∧ i < 2 ∧ r = 0 then 1 else 0) (fun _ => 0)

/-- Graph with two exactly redundant rank-one factors: the elimination
block of `x` is rank-deficient. -/
def gsingW : LinearFactorGraph K := ⟨[fsing, fsing]⟩

/-- A nonzero kernel vector of the singular pivot block of `gsingW`. -/
def vW : ℕ → K := fun b => if b = 0 then 1 else if b = 1 then 4 else 0

section SumToolkit

theorem rsum_eq_sum_range (d : ℕ) (f : ℕ → F) :
    rsum d f = ∑ i ∈ Finset.range d, f i := by
  induction d with
  | zero => simp [rsum]
  | succ n ih =>
    rw [rsum, List.range_succ, List.map_append, List.sum_append, Finset.sum_range_succ, ← ih, rsum]
    simp

theorem rsum_congr {d : ℕ} {f g : ℕ → F} (h : ∀ a < d, f a = g a) :
    rsum d f = rsum d g := by
  rw [rsum_eq_sum_range, rsum_eq_sum_range]
  exact Finset.sum_congr rfl (fun i hi => h i (Finset.mem_range.mp hi))

theorem rsum_add (d : ℕ) (f g : ℕ → F) :
    rsum d (fun a => f a + g a) = rsum d f + rsum d g := by
  simp [rsum_eq_sum_range, Finset.sum_add_distrib]

theorem rsum_sub (d : ℕ) (f g : ℕ → F) :
    rsum d (fun a => f a - g a) = rsum d f - rsum d g := by
  simp [rsum_eq_sum_range, Finset.sum_sub_distrib]

theorem rsum_zero_fun (d : ℕ) : rsum d (fun _ => (0 : F)) = 0 := by
  simp [rsum_eq_sum_range]

theorem rsum_eq_zero {d : ℕ} {f : ℕ → F} (h : ∀ a < d, f a = 0) : rsum d f = 0 := by
  rw [rsum_congr h, rsum_zero_fun]

theorem rsum_mul_left (d : ℕ) (c : F) (f : ℕ → F) :
    c * rsum d f = rsum d (fun a => c * f a) := by
  simp [rsum_eq_sum_range, Finset.mul_sum]

theorem rsum_mul_right (d : ℕ) (c : F) (f : ℕ → F) :
    rsum d f * c = rsum d (fun a => f a * c) := by
  simp [rsum_eq_sum_range, Finset.sum_mul]

theorem rsum_swap (d e : ℕ) (h : ℕ → ℕ → F) :
    rsum d (fun a => rsum e (fun b => h a b)) = rsum e (fun b => rsum d (fun a => h a b)) := by
  simp only [rsum_eq_sum_range]
  exact Finset.sum_comm

theorem rsum_split (m n : ℕ) (f : ℕ → F) :
    rsum (m + n) f = rsum m f + rsum n (fun i => f (m + i)) := by
  rw [rsum, List.range_add, List.map_append, List.sum_append, List.map_map, rsum, rsum]
  rfl

theorem rsum_delta_right {a d : ℕ} (h : a < d) (f : ℕ → F) :
    rsum d (fun b => f b * (if b = a then 1 else 0)) = f a := by
  rw [rsum_eq_sum_range]
  rw [Finset.sum_congr rfl (fun b _ => by rw [mul_ite, mul_one, mul_zero])]
  rw [Finset.sum_ite_eq' (Finset.range d) a f]
  rw [if_pos (Finset.mem_range.mpr h)]

theorem ksum_nil (f : String → ℕ → F) : ksum [] f = 0 := rfl

theorem ksum_cons (p : String × ℕ) (l : List (String × ℕ)) (f : String → ℕ → F) :
    ksum (p :: l) f = rsum p.2 (f p.1) + ksum l f := by
  simp [ksum]

theorem ksum_append (l1 l2 : List (String × ℕ)) (f : String → ℕ → F) :
    ksum (l1 ++ l2) f = ksum l1 f + ksum l2 f := by
  simp [ksum]

theorem ksum_congr {l : List (String × ℕ)} {f g : String → ℕ → F}
    (h : ∀ p ∈ l, ∀ a < p.2, f p.1 a = g p.1 a) : ksum l f = ksum l g := by
  induction l with
  | nil => rfl
  | cons p rest ih =>
    rw [ksum_cons, ksum_cons, ih (fun q hq => h q (List.mem_cons_of_mem p hq)),
      rsum_congr (h p (List.mem_cons_self p rest))]

theorem ksum_add (l : List (String × ℕ)) (f g : String → ℕ → F) :
    ksum l (fun j b => f j b + g j b) = ksum l f + ksum l g := by
  induction l with
  | nil => simp [ksum_nil]
  | cons p rest ih => rw [ksum_cons, ksum_cons, ksum_cons, rsum_add, ih]; ring

theorem ksum_sub (l : List (String × ℕ)) (f g : String → ℕ → F) :
    ksum l (fun j b => f j b - g j b) = ksum l f - ksum l g := by
  induction l with
  | nil => simp [ksum_nil]
  | cons p rest ih => rw [ksum_cons, ksum_cons, ksum_cons, rsum_sub, ih]; ring

theorem ksum_zero_fun (l : List (String × ℕ)) : ksum l (fun _ _ => (0 : F)) = 0 := by
  induction l with
  | nil => rfl
  | cons p rest ih => rw [ksum_cons, ih, rsum_zero_fun, add_zero]

theorem ksum_eq_zero {l : List (String × ℕ)} {f : String → ℕ → F}
    (h : ∀ p ∈ l, ∀ a < p.2, f p.1 a = 0) : ksum l f = 0 := by
  have h2 : ksum l f = ksum l (fun _ _ => (0 : F)) := ksum_congr h
  rw [h2, ksum_zero_fun]

theorem ksum_mul_left (l : List (String × ℕ)) (c : F) (f : String → ℕ → F) :
    c * ksum l f = ksum l (fun j b => c * f j b) := by
  induction l with
  | nil => simp [ksum_nil]
  | cons p rest ih => rw [ksum_cons, ksum_cons, mul_add, ih, rsum_mul_left]

theorem ksum_mul_right (l : List (String × ℕ)) (c : F) (f : String → ℕ → F) :
    ksum l f * c = ksum l (fun j b => f j b * c) := by
  induction l with
  | nil => simp [ksum_nil]
  | cons p rest ih => rw [ksum_cons, ksum_cons, add_mul, ih, rsum_mul_right]

theorem ksum_perm {l l' : List (String × ℕ)} (h : l.Perm l') (f : String → ℕ → F) :
    ksum l f = ksum l' f := by
  unfold ksum
  exact (h.map (fun p => rsum p.2 (f p.1))).sum_eq

theorem ksum_rsum_swap (l : List (String × ℕ)) (d : ℕ) (h : ℕ → String → ℕ → F) :
    ksum l (fun j c => rsum d (fun a => h a j c)) = rsum d (fun a => ksum l (fun j c => h a j c)) := by
  induction l with
  | nil =>
    rw [ksum_nil]
    have h2 : rsum d (fun a => ksum ([] : List (String × ℕ)) (fun j c => h a j c)) =
        rsum d (fun _ => (0 : F)) := rsum_congr (fun a _ => ksum_nil (fun j c => h a j c))
    rw [h2, rsum_zero_fun]
  | cons p rest ih =>
    rw [ksum_cons, ih, rsum_swap, ← rsum_add]
    exact rsum_congr (fun a _ => (ksum_cons p rest (fun j c => h a j c)).symm)

theorem ksum_ksum_swap (l1 l2 : List (String × ℕ)) (h : String → ℕ → String → ℕ → F) :
    ksum l1 (fun i a => ksum l2 (fun j b => h i a j b)) =
      ksum l2 (fun j b => ksum l1 (fun i a => h i a j b)) := by
  induction l1 with
  | nil =>
    rw [ksum_nil]
    have h2 : ksum l2 (fun j b => ksum ([] : List (String × ℕ)) (fun i a => h i a j b)) =
        ksum l2 (fun _ _ => (0 : F)) := ksum_congr (fun q _ b _ => ksum_nil (fun i a => h i a q.1 b))
    rw [h2, ksum_zero_fun]
  | cons p rest ih =>
    rw [ksum_cons, ih]
    have h2 : ksum l2 (fun j b => ksum (p :: rest) (fun i a => h i a j b)) =
        ksum l2 (fun j b => rsum p.2 (fun a => h p.1 a j b) + ksum rest (fun i a => h i a j b)) :=
      ksum_congr (fun q _ b _ => ksum_cons p rest (fun i a => h i a q.1 b))
    rw [h2, ksum_add, ksum_rsum_swap]

theorem mem_pair_eq_of_nodupKeys {l : List (String × ℕ)} (h : (l.map Prod.fst).Nodup)
    {p q : String × ℕ} (hp : p ∈ l) (hq : q ∈ l) (hfst : p.1 = q.1) : p = q :=
  List.inj_on_of_nodup_map h hp hq hfst

theorem ksum_deltaV_mul {l : List (String × ℕ)} (hnd : (l.map Prod.fst).Nodup)
    (k : String) (a : ℕ) (h : String → ℕ → F) :
    ksum l (fun j b => h j b * deltaV k a j b) =
      if memCoord l k a then h k a else 0 := by
  induction l with
  | nil =>
    rw [ksum_nil]
    have : ¬ memCoord ([] : List (String × ℕ)) k a := by
      rintro ⟨p, hp, -⟩; exact absurd hp (List.not_mem_nil p)
    simp [this]
  | cons p rest ih =>
    have hnd' : (rest.map Prod.fst).Nodup := (List.nodup_cons.mp hnd).2
    rw [ksum_cons, ih hnd']
    by_cases hk : p.1 = k
    · have hknotrest : ¬ memCoord rest k a := by
        rintro ⟨q, hq, hq1, -⟩
        exact (List.nodup_cons.mp hnd).1 (hk ▸ hq1 ▸ List.mem_map_of_mem Prod.fst hq)
      by_cases ha : a < p.2
      · have hmem : memCoord (p :: rest) k a := ⟨p, List.mem_cons_self p rest, hk, ha⟩
        have hr : rsum p.2 (fun b => h p.1 b * deltaV k a p.1 b) = h k a := by
          have h2 : rsum p.2 (fun b => h p.1 b * deltaV k a p.1 b) =
              rsum p.2 (fun b => h p.1 b * (if b = a then 1 else 0)) :=
            rsum_congr (fun b _ => by simp [deltaV, hk])
          rw [h2, rsum_delta_right ha (h p.1), hk]
        rw [hr, if_pos hmem, if_neg hknotrest, add_zero]
      · have hmem : ¬ memCoord (p :: rest) k a := by
          rintro ⟨q, hq, hq1, hq2⟩
          rcases List.mem_cons.mp hq with rfl | hq'
          · exact ha hq2
          · exact hknotrest ⟨q, hq', hq1, hq2⟩
        have : rsum p.2 (fun b => h p.1 b * deltaV k a p.1 b) = 0 := by
          refine rsum_eq_zero (fun b hb => ?_)
          have : ¬ (p.1 = k ∧ b = a) := by rintro ⟨-, rfl⟩; exact ha hb
          simp [deltaV, this]
        rw [this, if_neg hmem, if_neg hknotrest, add_zero]
    · have : rsum p.2 (fun b => h p.1 b * deltaV k a p.1 b) = 0 := by
        refine rsum_eq_zero (fun b _ => ?_)
        simp [deltaV, hk]
      rw [this, zero_add]
      by_cases hmem : memCoord rest k a
      · have : memCoord (p :: rest) k a := by
          obtain ⟨q, hq, hq1, hq2⟩ := hmem
          exact ⟨q, List.mem_cons_of_mem p hq, hq1, hq2⟩
        rw [if_pos hmem, if_pos this]
      · have : ¬ memCoord (p :: rest) k a := by
          rintro ⟨q, hq, hq1, hq2⟩
          rcases List.mem_cons.mp hq with rfl | hq'
          · exact hk hq1
          · exact hmem ⟨q, hq', hq1, hq2⟩
        rw [if_neg hmem, if_neg this]

theorem ksum_extend {Ks Ls : List (String × ℕ)}
    (hK : (Ks.map Prod.fst).Nodup) (hL : (Ls.map Prod.fst).Nodup)
    (hsub : ∀ p ∈ Ks, p ∈ Ls) {f : String → ℕ → F}
    (hsupp : ∀ i a, ¬ memCoord Ks i a → f i a = 0) :
    ksum Ls f = ksum Ks f := by
  have hLpairs : Ls.Nodup := hL.of_map
  have hKpairs : Ks.Nodup := hK.of_map
  set rest := Ls.filter (fun p => decide (p.1 ∉ Ks.map Prod.fst)) with hrest
  have hperm : Ls.Perm (Ks ++ rest) := by
    refine (List.perm_ext_iff_of_nodup hLpairs ?_).mpr ?_
    · refine List.Nodup.append hKpairs (List.Nodup.filter _ hLpairs) ?_
      intro q hqK hqrest
      have := List.of_mem_filter hqrest
      simp only [decide_eq_true_eq] at this
      exact this (List.mem_map_of_mem Prod.fst hqK)
    · intro q
      constructor
      · intro hq
        by_cases hqk : q.1 ∈ Ks.map Prod.fst
        · obtain ⟨p, hpK, hp1⟩ := List.mem_map.mp hqk
          have : p = q := mem_pair_eq_of_nodupKeys hL (hsub p hpK) hq hp1
          exact List.mem_append.mpr (Or.inl (this ▸ hpK))
        · refine List.mem_append.mpr (Or.inr (List.mem_filter.mpr ⟨hq, ?_⟩))
          simp [hqk]
      · intro hq
        rcases List.mem_append.mp hq with hq | hq
        · exact hsub q hq
        · exact List.mem_of_mem_filter hq
  rw [ksum_perm hperm f, ksum_append]
  have : ksum rest f = 0 := by
    refine ksum_eq_zero (fun p hp a ha => ?_)
    have hnotin := List.of_mem_filter hp
    simp only [decide_eq_true_eq] at hnotin
    refine hsupp p.1 a ?_
    rintro ⟨q, hqK, hq1, -⟩
    exact hnotin (hq1 ▸ List.mem_map_of_mem Prod.fst hqK)
  rw [this, add_zero]

theorem listSum_map_sub {α : Type} (l : List α) (u v : α → F) :
    (l.map (fun a => u a - v a)).sum = (l.map u).sum - (l.map v).sum := by
  induction l with
  | nil => simp
  | cons a rest ih => simp only [List.map_cons, List.sum_cons, ih]; ring

end SumToolkit

section DedupBy

variable {α : Type} (key : α → String)

theorem dedupBy_subset : ∀ (seen : List String) (l : List α),
    ∀ a ∈ dedupBy key seen l, a ∈ l := by
  intro seen l
  induction l generalizing seen with
  | nil => intro a ha; exact absurd ha (List.not_mem_nil a)
  | cons b rest ih =>
    intro a ha
    rw [dedupBy] at ha
    by_cases hb : key b ∈ seen
    · rw [if_pos hb] at ha
      exact List.mem_cons_of_mem b (ih seen a ha)
    · rw [if_neg hb] at ha
      rcases List.mem_cons.mp ha with rfl | ha'
      · exact List.mem_cons_self a rest
      · exact List.mem_cons_of_mem b (ih (key b :: seen) a ha')

theorem mem_map_key_dedupBy : ∀ (seen : List String) (l : List α) (k : String),
    k ∈ (dedupBy key seen l).map key ↔ (k ∉ seen ∧ k ∈ l.map key) := by
  intro seen l
  induction l generalizing seen with
  | nil => intro k; rw [dedupBy]; simp
  | cons b rest ih =>
    intro k
    rw [dedupBy]
    by_cases hb : key b ∈ seen
    · rw [if_pos hb, ih seen k, List.map_cons]
      constructor
      · rintro ⟨h1, h2⟩
        exact ⟨h1, List.mem_cons_of_mem _ h2⟩
      · rintro ⟨h1, h2⟩
        rcases List.mem_cons.mp h2 with rfl | h3
        · exact absurd hb h1
        · exact ⟨h1, h3⟩
    · rw [if_neg hb, List.map_cons, List.map_cons]
      constructor
      · intro h
        rcases List.mem_cons.mp h with rfl | h2
        · exact ⟨hb, List.mem_cons_self _ _⟩
        · obtain ⟨h3, h4⟩ := (ih (key b :: seen) k).mp h2
          exact ⟨fun hs => h3 (List.mem_cons_of_mem _ hs), List.mem_cons_of_mem _ h4⟩
      · rintro ⟨h1, h2⟩
        rcases List.mem_cons.mp h2 with rfl | h3
        · exact List.mem_cons_self _ _
        · by_cases hk : k = key b
          · subst hk; exact List.mem_cons_self _ _
          · refine List.mem_cons_of_mem _ ((ih (key b :: seen) k).mpr ⟨?_, h3⟩)
            intro hs
            rcases List.mem_cons.mp hs with h6 | h6
            · exact hk h6
            · exact h1 h6

theorem nodup_map_key_dedupBy : ∀ (seen : List String) (l : List α),
    ((dedupBy key seen l).map key).Nodup := by
  intro seen l
  induction l generalizing seen with
  | nil => simp [dedupBy]
  | cons b rest ih =>
    rw [dedupBy]
    by_cases hb : key b ∈ seen
    · rw [if_pos hb]; exact ih seen
    · rw [if_neg hb]
      simp only [List.map_cons, List.nodup_cons]
      refine ⟨fun hmem => ?_, ih (key b :: seen)⟩
      exact ((mem_map_key_dedupBy key (key b :: seen) rest (key b)).mp hmem).1
        (List.mem_cons_self _ _)

theorem mem_dedupBy_pairs {l : List (String × ℕ)} (hcons : DimConsistent l) :
    ∀ (seen : List String), ∀ p ∈ l, p.1 ∉ seen → p ∈ dedupBy Prod.fst seen l := by
  induction l with
  | nil => intro seen p hp; exact absurd hp (List.not_mem_nil p)
  | cons b rest ih =>
    intro seen p hp hseen
    have hconsrest : DimConsistent rest :=
      fun q hq q' hq' => hcons q (List.mem_cons_of_mem b hq) q' (List.mem_cons_of_mem b hq')
    rw [dedupBy]
    by_cases hb : b.1 ∈ seen
    · rw [if_pos hb]
      rcases List.mem_cons.mp hp with rfl | hp'
      · exact absurd hb hseen
      · exact ih hconsrest seen p hp' hseen
    · rw [if_neg hb]
      rcases List.mem_cons.mp hp with rfl | hp'
      · exact List.mem_cons_self p _
      · by_cases hfst : p.1 = b.1
        · have : p = b := by
            have h2 := hcons p (List.mem_cons_of_mem b hp') b (List.mem_cons_self b rest) hfst
            exact Prod.ext hfst h2
          exact this ▸ List.mem_cons_self b _
        · refine List.mem_cons_of_mem b (ih hconsrest (b.1 :: seen) p hp' ?_)
          simp [hfst, hseen]

end DedupBy

section BasicLemmas

theorem mem_dedupBy_id (seen : List String) (l : List String) (k : String) :
    k ∈ dedupBy id seen l ↔ (k ∉ seen ∧ k ∈ l) := by
  have h := mem_map_key_dedupBy id seen l k
  rwa [List.map_id, List.map_id] at h

theorem mem_touching {g : LinearFactorGraph F} {key : String} {f : LinearFactor F} :
    f ∈ touching g key ↔ (f ∈ g.factors ∧ key ∈ f.keyNames) := by
  unfold touching
  rw [List.mem_filter]
  simp

theorem mem_removeKey {g : LinearFactorGraph F} {key : String} {f : LinearFactor F} :
    f ∈ (removeKey g key).factors ↔ (f ∈ g.factors ∧ key ∉ f.keyNames) := by
  unfold removeKey
  rw [List.mem_filter]
  simp

theorem mem_varKeys {g : LinearFactorGraph F} {k : String} :
    k ∈ varKeys g ↔ ∃ f ∈ g.factors, k ∈ f.keyNames := by
  unfold varKeys
  rw [mem_dedupBy_id, List.mem_flatMap]
  simp

theorem mem_pairsOf {g : LinearFactorGraph F} {p : String × ℕ} :
    p ∈ pairsOf g ↔ ∃ f ∈ g.factors, p ∈ f.keys := by
  unfold pairsOf
  rw [List.mem_flatMap]

theorem variables_ok {g : LinearFactorGraph F} {vs : List (String × ℕ)}
    (h : g.variables = .ok vs) :
    vs = dedupBy Prod.fst [] (pairsOf g) ∧ DimConsistent (pairsOf g) := by
  unfold LinearFactorGraph.variables at h
  by_cases hc : DimConsistent (pairsOf g)
  · rw [if_pos hc] at h
    injection h with h2
    exact ⟨h2.symm, hc⟩
  · rw [if_neg hc] at h
    exact Except.noConfusion h

end BasicLemmas

/-- Claim C2: for every factor graph and every ordering, `optimize` agrees
with full elimination followed by back-substitution of the resulting
conditional chain, the mutated graph state included (also in the error
case: both fail identically on an incomplete ordering or a singular
pivot). -/
theorem claim_C2 (g : LinearFactorGraph F) (ord : List String) :
    g.optimize ord = Except.map (fun p => (backSubstitute p.1, p.2)) (g.eliminate ord) := by
  unfold LinearFactorGraph.optimize LinearFactorGraph.eliminate
  by_cases h : covers g ord
  · rw [if_pos h, if_pos h]
    cases eliminateSeq g ord with
    | error er => rfl
    | ok p => cases p; rfl
  · rw [if_neg h, if_neg h]; rfl

/-- Claim C7: full elimination on an ordering that does not cover all
variables fails with `IncompleteOrdering`; it returns normally only when
the ordering is complete. -/
theorem claim_C7 (g : LinearFactorGraph F) (ord : List String) :
    (¬ covers g ord → g.eliminate ord = .error .IncompleteOrdering) ∧
    (∀ r, g.eliminate ord = .ok r → covers g ord) := by
  constructor
  · intro h
    unfold LinearFactorGraph.eliminate
    rw [if_neg h]
  · intro r h
    by_contra hc
    unfold LinearFactorGraph.eliminate at h
    rw [if_neg hc] at h
    exact Except.noConfusion h

/-- Claim C9: `find_separator key` returns exactly the set of other keys
sharing at least one factor with `key`, and (being a `const` member) leaves
the factor graph unchanged. -/
theorem claim_C9 (g : LinearFactorGraph F) (key k' : String) :
    (k' ∈ g.find_separator key ↔
      (k' ≠ key ∧ ∃ f ∈ g.factors, key ∈ f.keyNames ∧ k' ∈ f.keyNames)) ∧
    (find_separatorRun g key).2 = g := by
  refine ⟨?_, rfl⟩
  unfold LinearFactorGraph.find_separator
  rw [mem_dedupBy_id, List.mem_filter]
  simp only [List.mem_flatMap, List.not_mem_nil, not_false_iff, true_and, decide_eq_true_eq]
  constructor
  · rintro ⟨⟨f, hf, hk⟩, hne⟩
    obtain ⟨hfg, hkey⟩ := mem_touching.mp hf
    exact ⟨hne, f, hfg, hkey, hk⟩
  · rintro ⟨hne, f, hfg, hkey, hk⟩
    exact ⟨⟨f, mem_touching.mpr ⟨hfg, hkey⟩, hk⟩, hne⟩

/-- Claim C10: the `const` queries `variables()` and `matrix(ordering)`
and the `const` method `add_priors(sigma)` leave the receiver unchanged,
and `add_priors` returns a new graph consisting of exactly the original
factors followed by the synthesized priors. -/
theorem claim_C10 (g : LinearFactorGraph F) (sigma : F) (ord : List String) :
    (variablesRun g).2 = g ∧ (matrixRun g ord).2 = g ∧ (add_priorsRun g sigma).2 = g ∧
      (g.add_priors sigma).factors =
        g.factors ++ (dedupBy Prod.fst [] (pairsOf g)).map (fun p => priorFactor sigma p.1 p.2) :=
  ⟨rfl, rfl, rfl, rfl⟩

theorem priorFactor_infoe (sigma : F) (k : String) (d : ℕ) (i : String) (a : ℕ) :
    (priorFactor sigma k d : LinearFactor F).infoe i a = 0 := by
  simp only [priorFactor, LinearFactor.infoe]
  exact rsum_eq_zero (fun r _ => mul_zero _)

theorem priorFactor_infoL (sigma : F) (k : String) (d : ℕ) {a b : ℕ}
    (ha : a < d) (hb : b < d) :
    (priorFactor sigma k d : LinearFactor F).infoL k k a b =
      if a = b then sigma⁻¹ * sigma⁻¹ else 0 := by
  simp only [priorFactor, LinearFactor.infoL]
  refine Eq.trans (rsum_congr (fun r _ => ?_))
    (Eq.trans (rsum_delta_right ha (fun r => (if r = b then sigma⁻¹ else 0) * sigma⁻¹)) ?_)
  · by_cases hra : r = a
    · by_cases hrb : r = b <;> simp [hra, hrb, ha, hb]
    · by_cases hrb : r = b <;> simp [hra, hrb, ha, hb]
  · by_cases hab : a = b
    · rw [if_pos hab, if_pos hab]
    · rw [if_neg hab, if_neg hab, zero_mul]

theorem priorFactor_energy (sigma : F) (k : String) (d : ℕ) (x : VectorConfig F) :
    (priorFactor sigma k d : LinearFactor F).energy x =
      rsum d (fun a => (sigma⁻¹ * x k a) ^ 2) := by
  unfold LinearFactor.energy
  have hkeys : (priorFactor sigma k d : LinearFactor F).keys = [(k, d)] := rfl
  have hc : (priorFactor sigma k d : LinearFactor F).infoc = 0 := by
    simp only [priorFactor, LinearFactor.infoc]
    exact rsum_eq_zero (fun r _ => mul_zero _)
  have hlin : linForm (priorFactor sigma k d : LinearFactor F).keys
      (priorFactor sigma k d : LinearFactor F).infoe x = 0 := by
    refine ksum_eq_zero (fun p _ a _ => ?_)
    rw [priorFactor_infoe, zero_mul]
  rw [hc, hlin, mul_zero, sub_zero, add_zero]
  unfold quadForm
  rw [hkeys, ksum_cons, ksum_nil, add_zero]
  have h2 : rsum d (fun a => ksum [(k, d)]
      (fun j b => x k a * (priorFactor sigma k d : LinearFactor F).infoL k j a b * x j b)) =
      rsum d (fun a => rsum d (fun b =>
        x k a * (priorFactor sigma k d : LinearFactor F).infoL k k a b * x k b)) := by
    refine rsum_congr (fun a _ => ?_)
    rw [ksum_cons, ksum_nil, add_zero]
  rw [h2]
  refine rsum_congr (fun a ha => ?_)
  have h3 : rsum d (fun b =>
      x k a * (priorFactor sigma k d : LinearFactor F).infoL k k a b * x k b) =
      rsum d (fun b => (x k a * (sigma⁻¹ * sigma⁻¹) * x k b) * (if b = a then 1 else 0)) := by
    refine rsum_congr (fun b hb => ?_)
    rw [priorFactor_infoL sigma k d ha hb]
    by_cases hab : a = b
    · subst hab; simp
    · rw [if_neg hab, if_neg (fun h => hab h.symm)]
      ring
  rw [h3, rsum_delta_right ha]
  ring

/-- Claim C8: `add_priors sigma` synthesizes, for every variable of
`variables()`, one unary prior factor, zero-mean and of standard deviation
`sigma` (its potential is `Σ (x/σ)²` and its information vector vanishes),
and the resulting graph is exactly the original factors plus one such
prior per variable. -/
theorem claim_C8 (g : LinearFactorGraph F) (sigma : F) (vs : List (String × ℕ))
    (h : g.variables = .ok vs) :
    (g.add_priors sigma).factors = g.factors ++ vs.map (fun p => priorFactor sigma p.1 p.2) ∧
    (∀ p ∈ vs, (priorFactor sigma p.1 p.2 : LinearFactor F).keys = [p]) ∧
    (∀ p ∈ vs, ∀ i a, (priorFactor sigma p.1 p.2 : LinearFactor F).infoe i a = 0) ∧
    (∀ p ∈ vs, ∀ x : VectorConfig F, (priorFactor sigma p.1 p.2 : LinearFactor F).energy x =
      rsum p.2 (fun a => (sigma⁻¹ * x p.1 a) ^ 2)) := by
  obtain ⟨hvs, -⟩ := variables_ok h
  refine ⟨?_, ?_, ?_, ?_⟩
  · unfold LinearFactorGraph.add_priors
    rw [hvs]
  · intro p _
    simp only [priorFactor, LinearFactor.keys]
  · intro p _ i a
    exact priorFactor_infoe sigma p.1 p.2 i a
  · intro p _ x
    exact priorFactor_energy sigma p.1 p.2 x

section CombinePerm

theorem DimConsistent_of_subset {l l' : List (String × ℕ)}
    (hsub : ∀ p ∈ l', p ∈ l) (h : DimConsistent l) : DimConsistent l' :=
  fun p hp q hq => h p (hsub p hp) q (hsub q hq)

theorem touching_subset_pairs {g : LinearFactorGraph F} {key : String} :
    ∀ p ∈ (touching g key).flatMap LinearFactor.keys, p ∈ pairsOf g := by
  intro p hp
  obtain ⟨f, hf, hpf⟩ := List.mem_flatMap.mp hp
  exact mem_pairsOf.mpr ⟨f, (mem_touching.mp hf).1, hpf⟩

theorem quadForm_perm {ks ks' : List (String × ℕ)} (hp : ks.Perm ks')
    (L : String → String → ℕ → ℕ → F) (x y : VectorConfig F) :
    quadForm ks L x y = quadForm ks' L x y := by
  unfold quadForm
  have h1 : ksum ks (fun i a => ksum ks (fun j b => x i a * L i j a b * y j b)) =
      ksum ks (fun i a => ksum ks' (fun j b => x i a * L i j a b * y j b)) :=
    ksum_congr (fun p _ a _ => ksum_perm hp _)
  rw [h1]
  exact ksum_perm hp _

theorem dimLookup_perm {ts1 ts2 : List (LinearFactor F)} {key : String}
    (hperm : (ts2.flatMap LinearFactor.keys).Perm (ts1.flatMap LinearFactor.keys))
    (hcons : DimConsistent (ts1.flatMap LinearFactor.keys)) :
    dimLookup ts2 key = dimLookup ts1 key := by
  unfold dimLookup
  by_cases hk : ∃ p ∈ ts1.flatMap LinearFactor.keys, p.1 = key
  · obtain ⟨p0, hp0, hp0k⟩ := hk
    have hs1 : ((ts1.flatMap LinearFactor.keys).find? (fun p => p.1 == key)).isSome := by
      rw [List.find?_isSome]
      exact ⟨p0, hp0, by simp [hp0k]⟩
    have hs2 : ((ts2.flatMap LinearFactor.keys).find? (fun p => p.1 == key)).isSome := by
      rw [List.find?_isSome]
      exact ⟨p0, hperm.symm.subset hp0, by simp [hp0k]⟩
    obtain ⟨p1, hp1⟩ := Option.isSome_iff_exists.mp hs1
    obtain ⟨p2, hp2⟩ := Option.isSome_iff_exists.mp hs2
    rw [hp1, hp2]
    have hm1 := List.mem_of_find?_eq_some hp1
    have hm2 : p2 ∈ ts1.flatMap LinearFactor.keys :=
      hperm.subset (List.mem_of_find?_eq_some hp2)
    have he1 : p1.1 = key := by simpa using List.find?_some hp1
    have he2 : p2.1 = key := by simpa using List.find?_some hp2
    have := hcons p2 hm2 p1 hm1 (he2.trans he1.symm)
    simp [this]
  · push_neg at hk
    have h1 : (ts1.flatMap LinearFactor.keys).find? (fun p => p.1 == key) = none :=
      List.find?_eq_none.mpr (fun p hp => by simpa using hk p hp)
    have h2 : (ts2.flatMap LinearFactor.keys).find? (fun p => p.1 == key) = none :=
      List.find?_eq_none.mpr (fun p hp => by simpa using hk p (hperm.subset hp))
    rw [h1, h2]

theorem mem_sepPairs_iff {ts : List (LinearFactor F)} {key : String}
    (hcons : DimConsistent (ts.flatMap LinearFactor.keys)) (p : String × ℕ) :
    p ∈ sepPairs ts key ↔ (p ∈ ts.flatMap LinearFactor.keys ∧ p.1 ≠ key) := by
  unfold sepPairs
  constructor
  · intro hp
    have := dedupBy_subset Prod.fst [] _ p hp
    have h2 := List.mem_filter.mp this
    refine ⟨h2.1, ?_⟩
    simpa using h2.2
  · rintro ⟨hp, hne⟩
    refine mem_dedupBy_pairs ?_ [] p (List.mem_filter.mpr ⟨hp, by simpa using hne⟩)
      (List.not_mem_nil p.1)
    refine DimConsistent_of_subset (fun q hq => List.mem_of_mem_filter hq) hcons

theorem sepPairs_perm {ts1 ts2 : List (LinearFactor F)} {key : String}
    (hperm : (ts2.flatMap LinearFactor.keys).Perm (ts1.flatMap LinearFactor.keys))
    (hcons : DimConsistent (ts1.flatMap LinearFactor.keys)) :
    (sepPairs ts2 key).Perm (sepPairs ts1 key) := by
  have hcons2 : DimConsistent (ts2.flatMap LinearFactor.keys) :=
    DimConsistent_of_subset (fun q hq => hperm.subset hq) hcons
  have hn1 : (sepPairs ts1 key).Nodup := (nodup_map_key_dedupBy Prod.fst [] _).of_map
  have hn2 : (sepPairs ts2 key).Nodup := (nodup_map_key_dedupBy Prod.fst [] _).of_map
  refine (List.perm_ext_iff_of_nodup hn2 hn1).mpr (fun p => ?_)
  rw [mem_sepPairs_iff hcons2 p, mem_sepPairs_iff hcons p]
  constructor
  · rintro ⟨hp, hne⟩; exact ⟨hperm.subset hp, hne⟩
  · rintro ⟨hp, hne⟩; exact ⟨hperm.symm.subset hp, hne⟩

/-- Claim C4: for any permutation of the factor multiset (hence of the
order in which the factors touching `key` are fed to combination),
`combine_factors key` produces a joint potential over the same
(key, dimension) blocks with numerically identical energy at every
assignment; the two calls also fail identically. -/
theorem claim_C4 (g1 g2 : LinearFactorGraph F) (key : String)
    (hcons : DimConsistent (pairsOf g1)) (hperm : g2.factors.Perm g1.factors)
    (x : VectorConfig F) :
    Except.map (fun p => (((p.1.keys : List (String × ℕ)) : Multiset (String × ℕ)), p.1.energy x))
        (g2.combine_factors key) =
      Except.map (fun p => (((p.1.keys : List (String × ℕ)) : Multiset (String × ℕ)), p.1.energy x))
        (g1.combine_factors key) := by
  have hts : (touching g2 key).Perm (touching g1 key) := hperm.filter _
  have hflat : ((touching g2 key).flatMap LinearFactor.keys).Perm
      ((touching g1 key).flatMap LinearFactor.keys) := hts.flatMap_right _
  have hcons1 : DimConsistent ((touching g1 key).flatMap LinearFactor.keys) :=
    DimConsistent_of_subset touching_subset_pairs hcons
  unfold LinearFactorGraph.combine_factors
  by_cases hemp : (touching g1 key).isEmpty = true
  · have hemp2 : (touching g2 key).isEmpty = true := by
      rw [List.isEmpty_iff] at hemp ⊢
      exact (hemp ▸ hts).eq_nil
    rw [if_pos hemp, if_pos hemp2]
  · have hemp2 : ¬ (touching g2 key).isEmpty = true := by
      rw [List.isEmpty_iff] at hemp ⊢
      intro h2
      exact hemp ((h2 ▸ hts.symm).eq_nil)
    rw [if_neg hemp, if_neg hemp2]
    simp only [Except.map]
    have hd : dimLookup (touching g2 key) key = dimLookup (touching g1 key) key :=
      dimLookup_perm hflat hcons1
    have hkp : ((combineList (touching g2 key) key).keys).Perm
        ((combineList (touching g1 key) key).keys) := by
      show ((key, dimLookup (touching g2 key) key) :: sepPairs (touching g2 key) key).Perm
        ((key, dimLookup (touching g1 key) key) :: sepPairs (touching g1 key) key)
      rw [hd]
      exact (sepPairs_perm hflat hcons1).cons _
    have hL : (combineList (touching g2 key) key).infoL =
        (combineList (touching g1 key) key).infoL := by
      funext i j a b
      exact (hts.map (fun f => f.infoL i j a b)).sum_eq
    have he : (combineList (touching g2 key) key).infoe =
        (combineList (touching g1 key) key).infoe := by
      funext i a
      exact (hts.map (fun f => f.infoe i a)).sum_eq
    have hc : (combineList (touching g2 key) key).infoc =
        (combineList (touching g1 key) key).infoc :=
      (hts.map LinearFactor.infoc).sum_eq
    have henergy : (combineList (touching g2 key) key).energy x =
        (combineList (touching g1 key) key).energy x := by
      unfold LinearFactor.energy
      rw [hL, he, hc, quadForm_perm hkp]
      have hlin : linForm (combineList (touching g2 key) key).keys
          (combineList (touching g1 key) key).infoe x =
          linForm (combineList (touching g1 key) key).keys
            (combineList (touching g1 key) key).infoe x := by
        unfold linForm
        exact ksum_perm hkp _
      rw [hlin]
    congr 1
    exact Prod.ext (Multiset.coe_eq_coe.mpr hkp) henergy

end CombinePerm

section StepLemmas

theorem pivotInverse_isInv {d : ℕ} {H M : ℕ → ℕ → F} (h : pivotInverse d H = some M) :
    IsInvPair d H M := by
  unfold pivotInverse at h
  split at h
  · exact Option.noConfusion h
  · split at h
    · rename_i hinv
      injection h with h2
      exact h2 ▸ hinv
    · exact Option.noConfusion h

theorem pivotInverse_none {d : ℕ} {H : ℕ → ℕ → F} (h : ∀ M, ¬ IsInvPair d H M) :
    pivotInverse d H = none := by
  cases hp : pivotInverse d H with
  | none => rfl
  | some M => exact absurd (pivotInverse_isInv hp) (h M)

theorem combineList_keys (fs : List (LinearFactor F)) (key : String) :
    (combineList fs key).keys = (key, dimLookup fs key) :: sepPairs fs key := rfl

theorem eliminate_one_empty {g : LinearFactorGraph F} {key : String}
    (hne : (touching g key).isEmpty = true) :
    g.eliminate_one key = .error .UnknownVariable := by
  unfold LinearFactorGraph.eliminate_one LinearFactorGraph.combine_factors
  rw [hne]
  rfl

theorem eliminate_one_nonempty {g : LinearFactorGraph F} {key : String}
    (hne : (touching g key).isEmpty = false) :
    g.eliminate_one key =
      match pivotInverse (dimLookup (touching g key) key)
          (pivotBlock (combineList (touching g key) key) key) with
      | none => .error .SingularElimination
      | some Minv =>
        .ok (mkConditional (combineList (touching g key) key) key Minv,
          ⟨(removeKey g key).factors ++
            [residualFactor (combineList (touching g key) key) key
              (dimLookup (touching g key) key) Minv]⟩) := by
  unfold LinearFactorGraph.eliminate_one LinearFactorGraph.combine_factors
  rw [hne]
  rfl

theorem eliminate_one_ok_iff {g : LinearFactorGraph F} {key : String}
    {cg : ConditionalGaussian F} {g1 : LinearFactorGraph F} :
    g.eliminate_one key = .ok (cg, g1) ↔
      ((touching g key).isEmpty = false ∧
        ∃ Minv, pivotInverse (dimLookup (touching g key) key)
            (pivotBlock (combineList (touching g key) key) key) = some Minv ∧
          cg = mkConditional (combineList (touching g key) key) key Minv ∧
          g1 = ⟨(removeKey g key).factors ++
            [residualFactor (combineList (touching g key) key) key
              (dimLookup (touching g key) key) Minv]⟩) := by
  by_cases hemp : (touching g key).isEmpty = true
  · rw [eliminate_one_empty hemp]
    constructor
    · intro h; exact Except.noConfusion h
    · rintro ⟨h, -⟩
      rw [hemp] at h
      exact Bool.noConfusion h
  · have hemp' : (touching g key).isEmpty = false := by
      cases h : (touching g key).isEmpty
      · rfl
      · exact absurd h hemp
    rw [eliminate_one_nonempty hemp']
    cases hpi : pivotInverse (dimLookup (touching g key) key)
        (pivotBlock (combineList (touching g key) key) key) with
    | none =>
      constructor
      · intro h; exact Except.noConfusion h
      · rintro ⟨-, Minv, hM, -⟩
        exact Option.noConfusion hM
    | some Minv =>
      constructor
      · intro h
        injection h with h2
        injection h2 with hcg hg1
        exact ⟨hemp', Minv, rfl, hcg.symm, hg1.symm⟩
      · rintro ⟨-, Minv2, hM, hcg, hg1⟩
        injection hM with hM2
        rw [hcg, hg1, hM2]

theorem varKeys_elim_one {g : LinearFactorGraph F} {key : String}
    {cg : ConditionalGaussian F} {g1 : LinearFactorGraph F}
    (h : g.eliminate_one key = .ok (cg, g1)) (k' : String) :
    k' ∈ varKeys g1 ↔ (k' ∈ varKeys g ∧ k' ≠ key) := by
  obtain ⟨hne, Minv, hpi, hcg, hg1⟩ := eliminate_one_ok_iff.mp h
  have hres : (residualFactor (combineList (touching g key) key) key
      (dimLookup (touching g key) key) Minv).keys = sepPairs (touching g key) key := rfl
  constructor
  · intro hk
    obtain ⟨f, hf, hkf⟩ := mem_varKeys.mp hk
    rw [hg1] at hf
    rcases List.mem_append.mp hf with hf | hf
    · obtain ⟨hfg, hknot⟩ := mem_removeKey.mp hf
      refine ⟨mem_varKeys.mpr ⟨f, hfg, hkf⟩, ?_⟩
      rintro rfl
      exact hknot hkf
    · rcases List.mem_singleton.mp hf with rfl
      unfold LinearFactor.keyNames at hkf
      rw [hres] at hkf
      obtain ⟨q, hq, hq1⟩ := List.mem_map.mp hkf
      have hq2 := dedupBy_subset Prod.fst [] _ q hq
      have hq3 := List.mem_filter.mp hq2
      obtain ⟨f', hf', hqf'⟩ := List.mem_flatMap.mp hq3.1
      refine ⟨mem_varKeys.mpr ⟨f', (mem_touching.mp hf').1,
        hq1 ▸ List.mem_map_of_mem Prod.fst hqf'⟩, ?_⟩
      rintro rfl
      have := hq3.2
      simp only [decide_eq_true_eq] at this
      exact this (hq1 ▸ rfl)
  · rintro ⟨hk, hne'⟩
    obtain ⟨f, hf, hkf⟩ := mem_varKeys.mp hk
    by_cases htf : key ∈ f.keyNames
    · have hfts : f ∈ touching g key := mem_touching.mpr ⟨hf, htf⟩
      obtain ⟨q, hq, hq1⟩ := List.mem_map.mp hkf
      have hqflat : q ∈ (touching g key).flatMap LinearFactor.keys :=
        List.mem_flatMap.mpr ⟨f, hfts, hq⟩
      have hqfil : q ∈ ((touching g key).flatMap LinearFactor.keys).filter
          (fun p => p.1 ≠ key) :=
        List.mem_filter.mpr ⟨hqflat, by simpa using hq1 ▸ hne'⟩
      have hmem : k' ∈ (sepPairs (touching g key) key).map Prod.fst := by
        unfold sepPairs
        rw [mem_map_key_dedupBy]
        exact ⟨List.not_mem_nil k', hq1 ▸ List.mem_map_of_mem Prod.fst hqfil⟩
      refine mem_varKeys.mpr ⟨residualFactor (combineList (touching g key) key) key
        (dimLookup (touching g key) key) Minv, ?_, ?_⟩
      · rw [hg1]
        exact List.mem_append.mpr (Or.inr (List.mem_singleton.mpr rfl))
      · unfold LinearFactor.keyNames
        rw [hres]
        exact hmem
    · refine mem_varKeys.mpr ⟨f, ?_, hkf⟩
      rw [hg1]
      exact List.mem_append.mpr (Or.inl (mem_removeKey.mpr ⟨hf, htf⟩))

theorem eliminateSeq_keys {g : LinearFactorGraph F} {ord : List String}
    {cbn : List (ConditionalGaussian F)} {g' : LinearFactorGraph F}
    (h : eliminateSeq g ord = .ok (cbn, g')) :
    cbn.map ConditionalGaussian.key = ord := by
  induction ord generalizing g cbn with
  | nil =>
    simp only [eliminateSeq] at h
    injection h with h2
    injection h2 with h3 h4
    rw [← h3]
    rfl
  | cons k ks ih =>
    simp only [eliminateSeq] at h
    split at h
    · exact Except.noConfusion h
    · rename_i cg0 gmid h1
      split at h
      · exact Except.noConfusion h
      · rename_i cbn2 g2 h2
        injection h with h3
        injection h3 with h4 h5
        obtain ⟨-, Minv, -, hcg, -⟩ := eliminate_one_ok_iff.mp h1
        rw [← h4, List.map_cons]
        have hkey : cg0.key = k := by rw [hcg]; rfl
        rw [hkey]
        rw [h5] at h2
        exact congrArg (List.cons k) (ih h2)

theorem eliminateSeq_varKeys {g : LinearFactorGraph F} {ord : List String}
    {cbn : List (ConditionalGaussian F)} {g' : LinearFactorGraph F}
    (h : eliminateSeq g ord = .ok (cbn, g')) (k' : String) :
    k' ∈ varKeys g' ↔ (k' ∈ varKeys g ∧ k' ∉ ord) := by
  induction ord generalizing g cbn with
  | nil =>
    simp only [eliminateSeq] at h
    injection h with h2
    injection h2 with h3 h4
    rw [← h4]
    simp
  | cons k ks ih =>
    simp only [eliminateSeq] at h
    split at h
    · exact Except.noConfusion h
    · rename_i cg0 gmid h1
      split at h
      · exact Except.noConfusion h
      · rename_i cbn2 g2 h2
        injection h with h3
        injection h3 with h4 h5
        have hstep := varKeys_elim_one h1 k'
        rw [h5] at h2
        have hrest := ih h2
        rw [hrest, hstep, List.mem_cons]
        constructor
        · rintro ⟨⟨hv, hne⟩, hnot⟩
          exact ⟨hv, fun hc => hc.elim (fun hc2 => hne hc2) hnot⟩
        · rintro ⟨hv, hnot⟩
          exact ⟨⟨hv, fun hc => hnot (Or.inl hc)⟩, fun hc => hnot (Or.inr hc)⟩

theorem eliminateSeq_append (g : LinearFactorGraph F) (p s : List String) :
    eliminateSeq g (p ++ s) =
      match eliminateSeq g p with
      | .error er => .error er
      | .ok pr =>
        match eliminateSeq pr.2 s with
        | .error er => .error er
        | .ok pr2 => .ok (pr.1 ++ pr2.1, pr2.2) := by
  induction p generalizing g with
  | nil =>
    simp only [List.nil_append, eliminateSeq]
    cases h : eliminateSeq g s with
    | error er => rfl
    | ok pr2 => simp
  | cons k ks ih =>
    simp only [List.cons_append, eliminateSeq]
    cases h1 : g.eliminate_one k with
    | error er => rfl
    | ok pr =>
      dsimp only
      rw [List.append_eq, ih pr.2]
      cases h2 : eliminateSeq pr.2 ks with
      | error er => rfl
      | ok pr3 =>
        dsimp only
        cases h3 : eliminateSeq pr3.2 s with
        | error er => rfl
        | ok pr4 => simp

theorem varKeys_nodup (g : LinearFactorGraph F) : (varKeys g).Nodup := by
  have h := nodup_map_key_dedupBy id ([] : List String)
    (g.factors.flatMap LinearFactor.keyNames)
  rwa [List.map_id] at h

theorem dedupBy_id_eq_nil {l : List String} (h : dedupBy id [] l = []) : l = [] := by
  cases l with
  | nil => rfl
  | cons a rest =>
    rw [dedupBy] at h
    rw [if_neg (List.not_mem_nil (id a))] at h
    exact List.noConfusion h

theorem variables_of_varKeys_nil {g : LinearFactorGraph F} (h : varKeys g = []) :
    g.variables = .ok [] := by
  have h1 : g.factors.flatMap LinearFactor.keyNames = [] := dedupBy_id_eq_nil h
  have h2 : pairsOf g = [] := by
    unfold pairsOf
    rw [List.flatMap_eq_nil_iff]
    intro f hf
    have h3 : f.keyNames = [] := by
      rw [List.flatMap_eq_nil_iff] at h1
      exact h1 f hf
    unfold LinearFactor.keyNames at h3
    exact List.map_eq_nil_iff.mp h3
  unfold LinearFactorGraph.variables
  rw [h2]
  rw [if_pos (show DimConsistent [] from fun p hp => absurd hp (List.not_mem_nil p))]
  rfl

theorem eliminate_ok_covers {g : LinearFactorGraph F} {ord : List String}
    {r : List (ConditionalGaussian F) × LinearFactorGraph F}
    (h : g.eliminate ord = .ok r) : covers g ord ∧ eliminateSeq g ord = .ok r := by
  unfold LinearFactorGraph.eliminate at h
  by_cases hc : covers g ord
  · rw [if_pos hc] at h
    exact ⟨hc, h⟩
  · rw [if_neg hc] at h
    exact Except.noConfusion h

end StepLemmas

/-- Claim C1: for a graph with N distinct variables and a complete
duplicate-free ordering over exactly those variables, a successful
`eliminate` returns one conditional per key in elimination order (hence
exactly N conditionals), and afterwards the graph has no variables:
`variables()` returns the empty set. -/
theorem claim_C1 (g : LinearFactorGraph F) (ord : List String) (hnd : ord.Nodup)
    (h1 : varKeys g ⊆ ord) (h2 : ord ⊆ varKeys g) :
    ∀ cbn g', g.eliminate ord = .ok (cbn, g') →
      cbn.map ConditionalGaussian.key = ord ∧ cbn.length = (varKeys g).length ∧
      varKeys g' = [] ∧ g'.variables = .ok [] := by
  intro cbn g' h
  obtain ⟨hcov, hseq⟩ := eliminate_ok_covers h
  have hkeys := eliminateSeq_keys hseq
  have hperm : ord.Perm (varKeys g) :=
    (List.perm_ext_iff_of_nodup hnd (varKeys_nodup g)).mpr
      (fun k => ⟨fun hk => h2 hk, fun hk => h1 hk⟩)
  have hlen : cbn.length = (varKeys g).length := by
    have := congrArg List.length hkeys
    rw [List.length_map] at this
    rw [this, hperm.length_eq]
  have hnil : varKeys g' = [] := by
    rw [List.eq_nil_iff_forall_not_mem]
    intro k hk
    obtain ⟨hv, hno⟩ := (eliminateSeq_varKeys hseq k).mp hk
    exact hno (h1 hv)
  exact ⟨hkeys, hlen, hnil, variables_of_varKeys_nil hnil⟩

/-- Claim C3: whenever full elimination succeeds on the ordering
`p ++ s`, partial elimination of the prefix `p` followed by full
elimination of the suffix `s` on the residual graph succeeds too, reaches
the same final graph, and the concatenated conditional chain is exactly
the full chain, so back-substituting it yields the same solution. -/
theorem claim_C3 (g : LinearFactorGraph F) (p s : List String) :
    ∀ cbn gf, g.eliminate (p ++ s) = .ok (cbn, gf) →
      ∃ c1 g1 c2, eliminate_partially g p = .ok (c1, g1) ∧
        g1.eliminate s = .ok (c2, gf) ∧ c1 ++ c2 = cbn ∧
        backSubstitute (c1 ++ c2) = backSubstitute cbn := by
  intro cbn gf h
  obtain ⟨hcov, hseq⟩ := eliminate_ok_covers h
  rw [eliminateSeq_append] at hseq
  split at hseq
  · exact Except.noConfusion hseq
  · rename_i pr h1
    split at hseq
    · exact Except.noConfusion hseq
    · rename_i pr2 h2
      injection hseq with h3
      injection h3 with h4 h5
      refine ⟨pr.1, pr.2, pr2.1, ?_, ?_, ?_, ?_⟩
      · unfold eliminate_partially
        rw [h1]
      · have hcov2 : covers pr.2 s := by
          intro k hk
          have h1' : eliminateSeq g p = .ok (pr.1, pr.2) := by rw [h1]
          obtain ⟨hv, hnp⟩ := (eliminateSeq_varKeys h1' k).mp hk
          have := hcov k hv
          rcases List.mem_append.mp this with hc | hc
          · exact absurd hc hnp
          · exact hc
        unfold LinearFactorGraph.eliminate
        rw [if_pos hcov2, h2, ← h5]
      · exact h4
      · rw [h4]

/-- Claim C6: when the pivot block of the variable being eliminated is
singular (no two-sided inverse of the block exists), `eliminate_one`
fails with `SingularElimination` instead of returning a conditional; no
silent regularization takes place. -/
theorem claim_C6 (g : LinearFactorGraph F) (key : String)
    (hne : (touching g key).isEmpty = false)
    (hs : ∀ M, ¬ IsInvPair (dimLookup (touching g key) key)
      (pivotBlock (combineList (touching g key) key) key) M) :
    g.eliminate_one key = .error .SingularElimination := by
  rw [eliminate_one_nonempty hne, pivotInverse_none hs]

section GradientSetup


theorem listSum_map_ne_zero {α : Type} {l : List α} {u : α → F}
    (h : (l.map u).sum ≠ 0) : ∃ a ∈ l, u a ≠ 0 := by
  induction l with
  | nil => simp at h
  | cons a rest ih =>
    by_cases ha : u a = 0
    · rw [List.map_cons, List.sum_cons, ha, zero_add] at h
      obtain ⟨b, hb, hub⟩ := ih h
      exact ⟨b, List.mem_cons_of_mem a hb, hub⟩
    · exact ⟨a, List.mem_cons_self a rest, ha⟩

theorem rsum_ne_zero {d : ℕ} {f : ℕ → F} (h : rsum d f ≠ 0) : ∃ a, a < d ∧ f a ≠ 0 := by
  by_contra hc
  push_neg at hc
  exact h (rsum_eq_zero (fun a ha => hc a ha))

theorem rowsWF_factorWF {f : LinearFactor F} (hnd : f.keyNames.Nodup) (hr : RowsWF f) :
    FactorWF f := by
  cases f with
  | info ks L e c => exact absurd hr (by simp [RowsWF])
  | rows ks m A b =>
    simp only [RowsWF] at hr
    refine ⟨hnd, ?_, ?_, ?_⟩
    · intro i j a b2
      simp only [LinearFactor.infoL]
      exact rsum_congr (fun r _ => mul_comm _ _)
    · intro i j a b2 hne
      simp only [LinearFactor.infoL] at hne
      obtain ⟨r, -, hr2⟩ := rsum_ne_zero hne
      obtain ⟨h1, h2⟩ := mul_ne_zero_iff.mp hr2
      constructor
      · by_contra hc
        exact h1 (hr r i a hc)
      · by_contra hc
        exact h2 (hr r j b2 hc)
    · intro i a hne
      simp only [LinearFactor.infoe] at hne
      obtain ⟨r, -, hr2⟩ := rsum_ne_zero hne
      obtain ⟨h1, -⟩ := mul_ne_zero_iff.mp hr2
      by_contra hc
      exact h1 (hr r i a hc)

theorem graph_split (g : LinearFactorGraph F) (key : String) (u : LinearFactor F → F) :
    (g.factors.map u).sum = ((touching g key).map u).sum + ((removeKey g key).factors.map u).sum := by
  unfold touching removeKey
  induction g.factors with
  | nil => simp
  | cons f rest ih =>
    by_cases hf : key ∈ f.keyNames
    · rw [List.map_cons, List.sum_cons,
        List.filter_cons_of_pos (by simpa using hf),
        List.filter_cons_of_neg (by simpa using hf)]
      rw [List.map_cons, List.sum_cons, ih]
      ring
    · rw [List.map_cons, List.sum_cons,
        List.filter_cons_of_neg (by simpa using hf),
        List.filter_cons_of_pos (by simpa using hf)]
      rw [List.map_cons, List.sum_cons, ih]
      ring

theorem quadForm_zeroL (ks : List (String × ℕ)) (x y : VectorConfig F) :
    quadForm ks (fun _ _ _ _ => (0 : F)) x y = 0 := by
  unfold quadForm
  exact ksum_eq_zero (fun p _ a _ => ksum_eq_zero (fun q _ b _ => by ring))

theorem quadForm_addL (ks : List (String × ℕ)) (L1 L2 : String → String → ℕ → ℕ → F)
    (x y : VectorConfig F) :
    quadForm ks (fun i j a b => L1 i j a b + L2 i j a b) x y =
      quadForm ks L1 x y + quadForm ks L2 x y := by
  unfold quadForm
  rw [← ksum_add]
  refine ksum_congr (fun p _ a _ => ?_)
  rw [← ksum_add]
  exact ksum_congr (fun q _ b _ => by ring)

theorem quadForm_sumL (ks : List (String × ℕ)) (fs : List (LinearFactor F))
    (x y : VectorConfig F) :
    quadForm ks (fun i j a b => (fs.map (fun f => f.infoL i j a b)).sum) x y =
      (fs.map (fun f => quadForm ks f.infoL x y)).sum := by
  induction fs with
  | nil => simpa using quadForm_zeroL ks x y
  | cons f rest ih =>
    rw [List.map_cons, List.sum_cons, ← ih, ← quadForm_addL]
    unfold quadForm
    refine ksum_congr (fun p _ a _ => ksum_congr (fun q _ b _ => by simp))

theorem linForm_zeroE (ks : List (String × ℕ)) (y : VectorConfig F) :
    linForm ks (fun _ _ => (0 : F)) y = 0 := by
  unfold linForm
  exact ksum_eq_zero (fun p _ a _ => by ring)

theorem linForm_addE (ks : List (String × ℕ)) (e1 e2 : String → ℕ → F) (y : VectorConfig F) :
    linForm ks (fun j b => e1 j b + e2 j b) y = linForm ks e1 y + linForm ks e2 y := by
  unfold linForm
  rw [← ksum_add]
  exact ksum_congr (fun p _ a _ => by ring)

theorem linForm_sumE (ks : List (String × ℕ)) (fs : List (LinearFactor F)) (y : VectorConfig F) :
    linForm ks (fun j b => (fs.map (fun f => f.infoe j b)).sum) y =
      (fs.map (fun f => linForm ks f.infoe y)).sum := by
  induction fs with
  | nil => simpa using linForm_zeroE ks y
  | cons f rest ih =>
    rw [List.map_cons, List.sum_cons, ← ih, ← linForm_addE]
    unfold linForm
    exact ksum_congr (fun p _ a _ => by simp)

theorem quadForm_extend {Ks Ls : List (String × ℕ)}
    (hK : (Ks.map Prod.fst).Nodup) (hL : (Ls.map Prod.fst).Nodup)
    (hsub : ∀ p ∈ Ks, p ∈ Ls) {L : String → String → ℕ → ℕ → F}
    (hsupp : ∀ i j a b, L i j a b ≠ 0 → memCoord Ks i a ∧ memCoord Ks j b)
    (x y : VectorConfig F) :
    quadForm Ls L x y = quadForm Ks L x y := by
  unfold quadForm
  have hinner : ∀ i a, ksum Ls (fun j b => x i a * L i j a b * y j b) =
      ksum Ks (fun j b => x i a * L i j a b * y j b) := by
    intro i a
    refine ksum_extend hK hL hsub (fun j b hjb => ?_)
    by_cases hz : L i j a b = 0
    · rw [hz]; ring
    · exact absurd (hsupp i j a b hz).2 hjb
  have houter : ksum Ls (fun i a => ksum Ls (fun j b => x i a * L i j a b * y j b)) =
      ksum Ks (fun i a => ksum Ls (fun j b => x i a * L i j a b * y j b)) := by
    refine ksum_extend hK hL hsub (fun i a hia => ?_)
    refine ksum_eq_zero (fun q _ b _ => ?_)
    by_cases hz : L i q.1 a b = 0
    · rw [hz]; ring
    · exact absurd (hsupp i q.1 a b hz).1 hia
  rw [houter]
  exact ksum_congr (fun p _ a _ => hinner p.1 a)

theorem linForm_extend {Ks Ls : List (String × ℕ)}
    (hK : (Ks.map Prod.fst).Nodup) (hL : (Ls.map Prod.fst).Nodup)
    (hsub : ∀ p ∈ Ks, p ∈ Ls) {e : String → ℕ → F}
    (hsupp : ∀ i a, e i a ≠ 0 → memCoord Ks i a) (y : VectorConfig F) :
    linForm Ls e y = linForm Ks e y := by
  unfold linForm
  refine ksum_extend hK hL hsub (fun j b hjb => ?_)
  by_cases hz : e j b = 0
  · rw [hz]; ring
  · exact absurd (hsupp j b hz) hjb

theorem inv_unique {d : ℕ} {H M N : ℕ → ℕ → F}
    (hM : IsInvPair d H M) (hN : IsInvPair d H N) :
    ∀ a < d, ∀ b < d, M a b = N a b := by
  intro a ha b hb
  have h1 : M a b = rsum d (fun c => M a c * idMat c b) := by
    have h2 : rsum d (fun c => M a c * idMat c b) =
        rsum d (fun c => M a c * (if c = b then 1 else 0)) :=
      rsum_congr (fun c _ => by rw [idMat])
    rw [h2, rsum_delta_right hb (fun c => M a c)]
  rw [h1]
  have h3 : rsum d (fun c => M a c * idMat c b) =
      rsum d (fun c => M a c * matMulB d H N c b) :=
    rsum_congr (fun c hc => by rw [hN.2 c hc b hb])
  rw [h3]
  have h4 : rsum d (fun c => M a c * matMulB d H N c b) =
      rsum d (fun e => idMat a e * N e b) := by
    unfold matMulB
    have h5 : rsum d (fun c => M a c * rsum d (fun e => H c e * N e b)) =
        rsum d (fun c => rsum d (fun e => M a c * (H c e * N e b))) :=
      rsum_congr (fun c _ => rsum_mul_left d (M a c) _)
    rw [h5, rsum_swap]
    refine rsum_congr (fun e he => ?_)
    have h6 : rsum d (fun c => M a c * (H c e * N e b)) =
        rsum d (fun c => M a c * H c e) * N e b := by
      rw [rsum_mul_right]
      exact rsum_congr (fun c _ => by ring)
    rw [h6]
    have h7 : rsum d (fun c => M a c * H c e) = idMat a e := hM.1 a ha e he
    rw [h7]
  rw [h4]
  have h8 : rsum d (fun e => idMat a e * N e b) =
      rsum d (fun e => N e b * (if e = a then 1 else 0)) :=
    rsum_congr (fun e _ => by
      unfold idMat
      by_cases hea : a = e
      · subst hea; simp
      · rw [if_neg hea, if_neg (fun h => hea h.symm)]; ring)
  rw [h8, rsum_delta_right ha (fun e => N e b)]

theorem inv_transpose {d : ℕ} {H M : ℕ → ℕ → F}
    (hH : ∀ a < d, ∀ b < d, H a b = H b a) (hM : IsInvPair d H M) :
    IsInvPair d H (fun a b => M b a) := by
  constructor
  · intro a ha b hb
    have h1 : matMulB d (fun a2 b2 => M b2 a2) H a b =
        rsum d (fun c => H b c * M c a) := by
      unfold matMulB
      exact rsum_congr (fun c hc => by rw [hH c hc b hb]; ring)
    rw [h1]
    have h2 : rsum d (fun c => H b c * M c a) = idMat b a := hM.2 b hb a ha
    rw [h2]
    unfold idMat
    by_cases hab : a = b
    · subst hab; simp
    · rw [if_neg hab, if_neg (fun h => hab h.symm)]
  · intro a ha b hb
    have h1 : matMulB d H (fun a2 b2 => M b2 a2) a b =
        rsum d (fun c => M b c * H c a) := by
      unfold matMulB
      exact rsum_congr (fun c hc => by rw [hH a ha c hc]; ring)
    rw [h1]
    have h2 : rsum d (fun c => M b c * H c a) = idMat b a := hM.1 b hb a ha
    rw [h2]
    unfold idMat
    by_cases hab : a = b
    · subst hab; simp
    · rw [if_neg hab, if_neg (fun h => hab h.symm)]

theorem inv_symm {d : ℕ} {H M : ℕ → ℕ → F}
    (hH : ∀ a < d, ∀ b < d, H a b = H b a) (hM : IsInvPair d H M) :
    ∀ a < d, ∀ b < d, M a b = M b a :=
  fun a ha b hb => inv_unique hM (inv_transpose hH hM) a ha b hb

theorem combineList_infoL (fs : List (LinearFactor F)) (key : String) :
    (combineList fs key).infoL = fun i j a b => (fs.map (fun f => f.infoL i j a b)).sum := rfl

theorem combineList_infoe (fs : List (LinearFactor F)) (key : String) :
    (combineList fs key).infoe = fun i a => (fs.map (fun f => f.infoe i a)).sum := rfl

theorem memCoord_mono {K L : List (String × ℕ)} (hsub : ∀ p ∈ K, p ∈ L)
    {i : String} {a : ℕ} (h : memCoord K i a) : memCoord L i a := by
  obtain ⟨p, hp, h1, h2⟩ := h
  exact ⟨p, hsub p hp, h1, h2⟩

theorem dimLookup_eq_of_mem {fs : List (LinearFactor F)}
    (hcons : DimConsistent (fs.flatMap LinearFactor.keys)) {q : String × ℕ}
    (hq : q ∈ fs.flatMap LinearFactor.keys) : dimLookup fs q.1 = q.2 := by
  unfold dimLookup
  have hs : ((fs.flatMap LinearFactor.keys).find? (fun p => p.1 == q.1)).isSome := by
    rw [List.find?_isSome]
    exact ⟨q, hq, by simp⟩
  obtain ⟨p1, hp1⟩ := Option.isSome_iff_exists.mp hs
  rw [hp1]
  have hm1 := List.mem_of_find?_eq_some hp1
  have he1 : p1.1 = q.1 := by simpa using List.find?_some hp1
  have := hcons p1 hm1 q hq he1
  simp [this]

theorem pair_mem_jointKeys {fs : List (LinearFactor F)} {key : String}
    (hcons : DimConsistent (fs.flatMap LinearFactor.keys)) :
    ∀ q ∈ fs.flatMap LinearFactor.keys, q ∈ (combineList fs key).keys := by
  intro q hq
  rw [combineList_keys]
  by_cases hk : q.1 = key
  · have hd : dimLookup fs key = q.2 := by
      rw [← hk]
      exact dimLookup_eq_of_mem hcons hq
    have : q = (key, dimLookup fs key) := Prod.ext hk hd.symm
    rw [this]
    exact List.mem_cons_self _ _
  · exact List.mem_cons_of_mem _ ((mem_sepPairs_iff hcons q).mpr ⟨hq, hk⟩)

theorem jointKeys_nodup (fs : List (LinearFactor F)) (key : String) :
    ((combineList fs key).keys.map Prod.fst).Nodup := by
  rw [combineList_keys, List.map_cons, List.nodup_cons]
  constructor
  · intro hmem
    obtain ⟨p, hp, hp1⟩ := List.mem_map.mp hmem
    have h2 := List.mem_filter.mp (dedupBy_subset Prod.fst [] _ p hp)
    have h3 := h2.2
    simp only [decide_eq_true_eq] at h3
    exact h3 hp1
  · exact nodup_map_key_dedupBy Prod.fst [] _

theorem jointL_symm {fs : List (LinearFactor F)} (key : String)
    (hwf : ∀ f ∈ fs, FactorWF f) (i j : String) (a b : ℕ) :
    (combineList fs key).infoL i j a b = (combineList fs key).infoL j i b a := by
  rw [combineList_infoL]
  show (fs.map (fun f => f.infoL i j a b)).sum = (fs.map (fun f => f.infoL j i b a)).sum
  rw [List.map_congr_left (fun f hf => ((hwf f hf).2.1 i j a b))]

theorem jointL_supp {fs : List (LinearFactor F)} {key : String}
    (hwf : ∀ f ∈ fs, FactorWF f) (hcons : DimConsistent (fs.flatMap LinearFactor.keys))
    (i j : String) (a b : ℕ) (hne : (combineList fs key).infoL i j a b ≠ 0) :
    memCoord (combineList fs key).keys i a ∧ memCoord (combineList fs key).keys j b := by
  rw [combineList_infoL] at hne
  obtain ⟨f, hf, hfne⟩ := listSum_map_ne_zero hne
  obtain ⟨h1, h2⟩ := (hwf f hf).2.2.1 i j a b hfne
  have hsub : ∀ p ∈ f.keys, p ∈ fs.flatMap LinearFactor.keys :=
    fun p hp => List.mem_flatMap.mpr ⟨f, hf, hp⟩
  exact ⟨memCoord_mono (fun p hp => pair_mem_jointKeys hcons p (hsub p hp)) h1,
    memCoord_mono (fun p hp => pair_mem_jointKeys hcons p (hsub p hp)) h2⟩

theorem jointe_supp {fs : List (LinearFactor F)} {key : String}
    (hwf : ∀ f ∈ fs, FactorWF f) (hcons : DimConsistent (fs.flatMap LinearFactor.keys))
    (i : String) (a : ℕ) (hne : (combineList fs key).infoe i a ≠ 0) :
    memCoord (combineList fs key).keys i a := by
  rw [combineList_infoe] at hne
  obtain ⟨f, hf, hfne⟩ := listSum_map_ne_zero hne
  have h1 := (hwf f hf).2.2.2 i a hfne
  have hsub : ∀ p ∈ f.keys, p ∈ fs.flatMap LinearFactor.keys :=
    fun p hp => List.mem_flatMap.mpr ⟨f, hf, hp⟩
  exact memCoord_mono (fun p hp => pair_mem_jointKeys hcons p (hsub p hp)) h1

theorem pivotBlock_symm {fs : List (LinearFactor F)} (key : String)
    (hwf : ∀ f ∈ fs, FactorWF f) :
    ∀ a < dimLookup fs key, ∀ b < dimLookup fs key,
      pivotBlock (combineList fs key) key a b = pivotBlock (combineList fs key) key b a :=
  fun a _ b _ => jointL_symm key hwf key key a b

theorem residualFactor_keys (fs : List (LinearFactor F)) (key : String) (d : ℕ)
    (Minv : ℕ → ℕ → F) :
    (residualFactor (combineList fs key) key d Minv).keys = sepPairs fs key := rfl

theorem residual_factorWF {fs : List (LinearFactor F)} {key : String} {Minv : ℕ → ℕ → F}
    (hwf : ∀ f ∈ fs, FactorWF f) (hcons : DimConsistent (fs.flatMap LinearFactor.keys))
    (hM : IsInvPair (dimLookup fs key) (pivotBlock (combineList fs key) key) Minv) :
    FactorWF (residualFactor (combineList fs key) key (dimLookup fs key) Minv) := by
  have hMsymm : ∀ a < dimLookup fs key, ∀ b < dimLookup fs key, Minv a b = Minv b a :=
    inv_symm (pivotBlock_symm key hwf) hM
  have htail : (combineList fs key).keys.tail = sepPairs fs key := rfl
  refine ⟨?_, ?_, ?_, ?_⟩
  · show ((sepPairs fs key).map Prod.fst).Nodup
    exact nodup_map_key_dedupBy Prod.fst [] _
  · intro i j a b
    show (if memCoord (sepPairs fs key) i a ∧ memCoord (sepPairs fs key) j b then _ else (0 : F)) =
      (if memCoord (sepPairs fs key) j b ∧ memCoord (sepPairs fs key) i a then _ else (0 : F))
    by_cases hcond : memCoord (sepPairs fs key) i a ∧ memCoord (sepPairs fs key) j b
    · rw [if_pos hcond, if_pos (And.intro hcond.2 hcond.1)]
      have h1 : (combineList fs key).infoL i j a b = (combineList fs key).infoL j i b a :=
        jointL_symm key hwf i j a b
      have h2 : rsum (dimLookup fs key) (fun p => rsum (dimLookup fs key) (fun q =>
          (combineList fs key).infoL j key b p * Minv p q * (combineList fs key).infoL key i q a)) =
          rsum (dimLookup fs key) (fun p => rsum (dimLookup fs key) (fun q =>
          (combineList fs key).infoL i key a p * Minv p q * (combineList fs key).infoL key j q b)) := by
        rw [rsum_swap]
        refine rsum_congr (fun p hp => rsum_congr (fun q hq => ?_))
        rw [jointL_symm key hwf j key b q, jointL_symm key hwf key i p a,
          hMsymm q hq p hp]
        ring
      rw [h1, h2]
    · rw [if_neg hcond, if_neg (fun hc => hcond (And.intro hc.2 hc.1))]
  · intro i j a b hne
    show memCoord (sepPairs fs key) i a ∧ memCoord (sepPairs fs key) j b
    by_contra hc
    refine hne ?_
    show (if memCoord (sepPairs fs key) i a ∧ memCoord (sepPairs fs key) j b then _ else (0 : F)) = 0
    rw [if_neg hc]
  · intro i a hne
    show memCoord (sepPairs fs key) i a
    by_contra hc
    refine hne ?_
    show (if memCoord (sepPairs fs key) i a then _ else (0 : F)) = 0
    rw [if_neg hc]

theorem touching_wf {g : LinearFactorGraph F} (hwf : GraphWF g) (key : String) :
    ∀ f ∈ touching g key, FactorWF f :=
  fun f hf => hwf.1 f (mem_touching.mp hf).1

theorem touching_cons {g : LinearFactorGraph F} (hwf : GraphWF g) (key : String) :
    DimConsistent ((touching g key).flatMap LinearFactor.keys) :=
  DimConsistent_of_subset touching_subset_pairs hwf.2

theorem graphWF_elim_one {g : LinearFactorGraph F} {key : String}
    {cg : ConditionalGaussian F} {g1 : LinearFactorGraph F}
    (hwf : GraphWF g) (h : g.eliminate_one key = .ok (cg, g1)) : GraphWF g1 := by
  obtain ⟨hne, Minv, hpi, hcg, hg1⟩ := eliminate_one_ok_iff.mp h
  have hM := pivotInverse_isInv hpi
  have hsub1 : ∀ p ∈ pairsOf g1, p ∈ pairsOf g := by
    intro p hp
    obtain ⟨f, hf, hpf⟩ := mem_pairsOf.mp hp
    rw [hg1] at hf
    rcases List.mem_append.mp hf with hf | hf
    · exact mem_pairsOf.mpr ⟨f, (mem_removeKey.mp hf).1, hpf⟩
    · rcases List.mem_singleton.mp hf with rfl
      rw [residualFactor_keys] at hpf
      have h2 := List.mem_filter.mp (dedupBy_subset Prod.fst [] _ p hpf)
      exact touching_subset_pairs p h2.1
  refine ⟨?_, DimConsistent_of_subset hsub1 hwf.2⟩
  intro f hf
  rw [hg1] at hf
  rcases List.mem_append.mp hf with hf | hf
  · exact hwf.1 f (mem_removeKey.mp hf).1
  · rcases List.mem_singleton.mp hf with rfl
    exact residual_factorWF (touching_wf hwf key) (touching_cons hwf key) hM

end GradientSetup

section CoreIdentity

variable (d : ℕ) (key : String) (sep : List (String × ℕ))
variable (JL : String → String → ℕ → ℕ → F) (Je : String → ℕ → F) (Minv : ℕ → ℕ → F)
variable (x y : VectorConfig F)

theorem fix_expand
    (hfix : ∀ a < d, x key a =
      rsum d (fun c => Minv a c * (Je key c - ksum sep (fun j2 e => JL key j2 c e * x j2 e))))
    (j : String) (b : ℕ) :
    rsum d (fun a => x key a * JL key j a b) =
      rsum d (fun c => rsum d (fun a => Minv a c * JL key j a b) *
        (Je key c - ksum sep (fun j2 e => JL key j2 c e * x j2 e))) := by
  have e1 : rsum d (fun a => x key a * JL key j a b) =
      rsum d (fun a => rsum d (fun c =>
        Minv a c * (Je key c - ksum sep (fun j2 e => JL key j2 c e * x j2 e))) * JL key j a b) :=
    rsum_congr (fun a ha => by rw [hfix a ha])
  rw [e1]
  have e2 : rsum d (fun a => rsum d (fun c =>
      Minv a c * (Je key c - ksum sep (fun j2 e => JL key j2 c e * x j2 e))) * JL key j a b) =
      rsum d (fun a => rsum d (fun c =>
        Minv a c * (Je key c - ksum sep (fun j2 e => JL key j2 c e * x j2 e)) * JL key j a b)) :=
    rsum_congr (fun a _ => rsum_mul_right d (JL key j a b) _)
  rw [e2, rsum_swap]
  refine rsum_congr (fun c _ => ?_)
  have e3 : rsum d (fun a =>
      Minv a c * (Je key c - ksum sep (fun j2 e => JL key j2 c e * x j2 e)) * JL key j a b) =
      rsum d (fun a => (Minv a c * JL key j a b) *
        (Je key c - ksum sep (fun j2 e => JL key j2 c e * x j2 e))) :=
    rsum_congr (fun a _ => by ring)
  rw [e3, ← rsum_mul_right]

theorem core_keycoeff
    (hinv : IsInvPair d (fun a b => JL key key a b) Minv)
    (hMsymm : ∀ a < d, ∀ b < d, Minv a b = Minv b a)
    (hsymm : ∀ i j a b, JL i j a b = JL j i b a)
    (hfix : ∀ a < d, x key a =
      rsum d (fun c => Minv a c * (Je key c - ksum sep (fun j2 e => JL key j2 c e * x j2 e))))
    (b : ℕ) (hb : b < d) :
    rsum d (fun a => x key a * JL key key a b) +
      ksum sep (fun i a => x i a * JL i key a b) = Je key b := by
  rw [fix_expand d key sep JL Je Minv x hfix key b]
  have e4 : rsum d (fun c => rsum d (fun a => Minv a c * JL key key a b) *
      (Je key c - ksum sep (fun j2 e => JL key j2 c e * x j2 e))) =
      rsum d (fun c => idMat c b *
        (Je key c - ksum sep (fun j2 e => JL key j2 c e * x j2 e))) := by
    refine rsum_congr (fun c hc => ?_)
    have e5 : rsum d (fun a => Minv a c * JL key key a b) =
        rsum d (fun a => Minv c a * JL key key a b) :=
      rsum_congr (fun a ha => by rw [hMsymm a ha c hc])
    rw [e5]
    have e6 : rsum d (fun a => Minv c a * JL key key a b) = idMat c b := hinv.1 c hc b hb
    rw [e6]
  rw [e4]
  have e7 : rsum d (fun c => idMat c b *
      (Je key c - ksum sep (fun j2 e => JL key j2 c e * x j2 e))) =
      rsum d (fun c => (Je key c - ksum sep (fun j2 e => JL key j2 c e * x j2 e)) *
        (if c = b then 1 else 0)) :=
    rsum_congr (fun c _ => by rw [idMat]; ring)
  rw [e7, rsum_delta_right hb]
  have e8 : ksum sep (fun i a => x i a * JL i key a b) =
      ksum sep (fun j2 e => JL key j2 b e * x j2 e) :=
    ksum_congr (fun p _ a _ => by rw [hsymm p.1 key a b]; ring)
  rw [e8]
  ring

theorem core_sepcoeff
    (hMsymm : ∀ a < d, ∀ b < d, Minv a b = Minv b a)
    (hsymm : ∀ i j a b, JL i j a b = JL j i b a)
    (hfix : ∀ a < d, x key a =
      rsum d (fun c => Minv a c * (Je key c - ksum sep (fun j2 e => JL key j2 c e * x j2 e))))
    (j : String) (b : ℕ) :
    rsum d (fun a => x key a * JL key j a b) +
      ksum sep (fun i e => x i e *
        rsum d (fun p => rsum d (fun q => JL i key e p * Minv p q * JL key j q b))) =
      rsum d (fun p => rsum d (fun q => JL j key b p * Minv p q * Je key q)) := by
  rw [fix_expand d key sep JL Je Minv x hfix j b]
  have hP : rsum d (fun c => rsum d (fun a => Minv a c * JL key j a b) *
      (Je key c - ksum sep (fun j2 e => JL key j2 c e * x j2 e))) =
      rsum d (fun c => rsum d (fun a => Minv a c * JL key j a b) * Je key c) -
      rsum d (fun c => rsum d (fun a => Minv a c * JL key j a b) *
        ksum sep (fun j2 e => JL key j2 c e * x j2 e)) := by
    rw [← rsum_sub]
    exact rsum_congr (fun c _ => by ring)
  rw [hP]
  have hA : rsum d (fun p => rsum d (fun q => JL j key b p * Minv p q * Je key q)) =
      rsum d (fun c => rsum d (fun a => Minv a c * JL key j a b) * Je key c) := by
    rw [rsum_swap]
    refine rsum_congr (fun q hq => ?_)
    have e1 : rsum d (fun p => JL j key b p * Minv p q * Je key q) =
        rsum d (fun p => (Minv p q * JL key j p b) * Je key q) :=
      rsum_congr (fun p _ => by rw [hsymm j key b p]; ring)
    rw [e1, ← rsum_mul_right]
  have hB : ksum sep (fun i e => x i e *
      rsum d (fun p => rsum d (fun q => JL i key e p * Minv p q * JL key j q b))) =
      rsum d (fun c => rsum d (fun a => Minv a c * JL key j a b) *
        ksum sep (fun j2 e => JL key j2 c e * x j2 e)) := by
    have e2 : rsum d (fun c => rsum d (fun a => Minv a c * JL key j a b) *
        ksum sep (fun j2 e => JL key j2 c e * x j2 e)) =
        rsum d (fun c => ksum sep (fun j2 e =>
          rsum d (fun a => Minv a c * JL key j a b) * (JL key j2 c e * x j2 e))) :=
      rsum_congr (fun c _ => ksum_mul_left sep _ _)
    rw [e2]
    have e3 : rsum d (fun c => ksum sep (fun j2 e =>
        rsum d (fun a => Minv a c * JL key j a b) * (JL key j2 c e * x j2 e))) =
        ksum sep (fun j2 e => rsum d (fun c =>
          rsum d (fun a => Minv a c * JL key j a b) * (JL key j2 c e * x j2 e))) :=
      (ksum_rsum_swap sep d _).symm
    rw [e3]
    refine ksum_congr (fun p _ e => fun _ => ?_)
    have e4 : rsum d (fun c =>
        rsum d (fun a => Minv a c * JL key j a b) * (JL key p.1 c e * x p.1 e)) =
        rsum d (fun c =>
          rsum d (fun a => Minv a c * JL key j a b * (JL key p.1 c e * x p.1 e))) :=
      rsum_congr (fun c _ => rsum_mul_right d _ _)
    rw [e4]
    have e5 : rsum d (fun c =>
        rsum d (fun a => Minv a c * JL key j a b * (JL key p.1 c e * x p.1 e))) =
        rsum d (fun c => rsum d (fun a =>
          (JL key p.1 c e * Minv c a * JL key j a b) * x p.1 e)) := by
      refine rsum_congr (fun c hc => rsum_congr (fun a ha => ?_))
      rw [hMsymm a ha c hc]
      ring
    rw [e5]
    have e6 : rsum d (fun c => rsum d (fun a =>
        (JL key p.1 c e * Minv c a * JL key j a b) * x p.1 e)) =
        rsum d (fun c => rsum d (fun a =>
          JL key p.1 c e * Minv c a * JL key j a b)) * x p.1 e := by
      rw [rsum_mul_right]
      exact rsum_congr (fun c _ => by rw [rsum_mul_right])
    rw [e6]
    have e7 : rsum d (fun p2 => rsum d (fun q => JL p.1 key e p2 * Minv p2 q * JL key j q b)) =
        rsum d (fun c => rsum d (fun a => JL key p.1 c e * Minv c a * JL key j a b)) :=
      rsum_congr (fun p2 _ => rsum_congr (fun q _ => by rw [hsymm p.1 key e p2]))
    rw [e7]
    ring
  rw [hA, hB]
  ring

theorem step_grad_core
    (hinv : IsInvPair d (fun a b => JL key key a b) Minv)
    (hMsymm : ∀ a < d, ∀ b < d, Minv a b = Minv b a)
    (hsymm : ∀ i j a b, JL i j a b = JL j i b a)
    (hfix : ∀ a < d, x key a =
      rsum d (fun c => Minv a c * (Je key c - ksum sep (fun j2 e => JL key j2 c e * x j2 e)))) :
    (rsum d (fun a => rsum d (fun b => x key a * JL key key a b * y key b)) +
     rsum d (fun a => ksum sep (fun j b => x key a * JL key j a b * y j b)) +
     ksum sep (fun i a => rsum d (fun b => x i a * JL i key a b * y key b)) +
     ksum sep (fun i a => ksum sep (fun j b => x i a * JL i j a b * y j b))) -
    (rsum d (fun b => Je key b * y key b) + ksum sep (fun j b => Je j b * y j b)) =
    (ksum sep (fun i a => ksum sep (fun j b => x i a *
        (JL i j a b -
          rsum d (fun p => rsum d (fun q => JL i key a p * Minv p q * JL key j q b))) * y j b))) -
    (ksum sep (fun j b => (Je j b -
        rsum d (fun p => rsum d (fun q => JL j key b p * Minv p q * Je key q))) * y j b)) := by
  have hT1 : rsum d (fun a => rsum d (fun b => x key a * JL key key a b * y key b)) =
      rsum d (fun b => rsum d (fun a => x key a * JL key key a b) * y key b) := by
    rw [rsum_swap]
    exact rsum_congr (fun b _ => (rsum_mul_right d (y key b) _).symm)
  have hT3 : ksum sep (fun i a => rsum d (fun b => x i a * JL i key a b * y key b)) =
      rsum d (fun b => ksum sep (fun i a => x i a * JL i key a b) * y key b) := by
    rw [ksum_rsum_swap]
    exact rsum_congr (fun b _ => (ksum_mul_right sep (y key b) _).symm)
  have hT2 : rsum d (fun a => ksum sep (fun j b => x key a * JL key j a b * y j b)) =
      ksum sep (fun j b => rsum d (fun a => x key a * JL key j a b) * y j b) := by
    rw [← ksum_rsum_swap]
    exact ksum_congr (fun p _ b _ => (rsum_mul_right d (y p.1 b) _).symm)
  have hT7 : ksum sep (fun i a => ksum sep (fun j b => x i a *
      (rsum d (fun p => rsum d (fun q => JL i key a p * Minv p q * JL key j q b))) * y j b)) =
      ksum sep (fun j b => ksum sep (fun i a => x i a *
        rsum d (fun p => rsum d (fun q => JL i key a p * Minv p q * JL key j q b))) * y j b) := by
    rw [ksum_ksum_swap]
    exact ksum_congr (fun p _ b _ => (ksum_mul_right sep (y p.1 b) _).symm)
  have h1 : rsum d (fun a => rsum d (fun b => x key a * JL key key a b * y key b)) +
      ksum sep (fun i a => rsum d (fun b => x i a * JL i key a b * y key b)) =
      rsum d (fun b => Je key b * y key b) := by
    rw [hT1, hT3, ← rsum_add]
    refine rsum_congr (fun b hb => ?_)
    rw [← add_mul, core_keycoeff d key sep JL Je Minv x hinv hMsymm hsymm hfix b hb]
  have h2 : rsum d (fun a => ksum sep (fun j b => x key a * JL key j a b * y j b)) +
      ksum sep (fun i a => ksum sep (fun j b => x i a *
        (rsum d (fun p => rsum d (fun q => JL i key a p * Minv p q * JL key j q b))) * y j b)) =
      ksum sep (fun j b => (rsum d (fun p =>
        rsum d (fun q => JL j key b p * Minv p q * Je key q))) * y j b) := by
    rw [hT2, hT7, ← ksum_add]
    refine ksum_congr (fun p _ b _ => ?_)
    rw [← add_mul, core_sepcoeff d key sep JL Je Minv x hMsymm hsymm hfix p.1 b]
  have hR1 : ksum sep (fun i a => ksum sep (fun j b => x i a *
      (JL i j a b -
        rsum d (fun p => rsum d (fun q => JL i key a p * Minv p q * JL key j q b))) * y j b)) =
      ksum sep (fun i a => ksum sep (fun j b => x i a * JL i j a b * y j b)) -
      ksum sep (fun i a => ksum sep (fun j b => x i a *
        (rsum d (fun p => rsum d (fun q => JL i key a p * Minv p q * JL key j q b))) * y j b)) := by
    rw [← ksum_sub]
    refine ksum_congr (fun p _ a _ => ?_)
    rw [← ksum_sub]
    exact ksum_congr (fun q _ b _ => by ring)
  have hR2 : ksum sep (fun j b => (Je j b -
      rsum d (fun p => rsum d (fun q => JL j key b p * Minv p q * Je key q))) * y j b) =
      ksum sep (fun j b => Je j b * y j b) -
      ksum sep (fun j b => (rsum d (fun p =>
        rsum d (fun q => JL j key b p * Minv p q * Je key q))) * y j b) := by
    rw [← ksum_sub]
    exact ksum_congr (fun p _ b _ => by ring)
  rw [hR1, hR2]
  linear_combination h1 + h2

end CoreIdentity

section StepWrapper

theorem quadForm_cons (p : String × ℕ) (sep : List (String × ℕ))
    (L : String → String → ℕ → ℕ → F) (x y : VectorConfig F) :
    quadForm (p :: sep) L x y =
      rsum p.2 (fun a => rsum p.2 (fun b => x p.1 a * L p.1 p.1 a b * y p.1 b)) +
      rsum p.2 (fun a => ksum sep (fun j b => x p.1 a * L p.1 j a b * y j b)) +
      (ksum sep (fun i a => rsum p.2 (fun b => x i a * L i p.1 a b * y p.1 b)) +
       ksum sep (fun i a => ksum sep (fun j b => x i a * L i j a b * y j b))) := by
  unfold quadForm
  rw [ksum_cons]
  have e1 : rsum p.2 (fun a => ksum (p :: sep) (fun j b => x p.1 a * L p.1 j a b * y j b)) =
      rsum p.2 (fun a => rsum p.2 (fun b => x p.1 a * L p.1 p.1 a b * y p.1 b) +
        ksum sep (fun j b => x p.1 a * L p.1 j a b * y j b)) :=
    rsum_congr (fun a _ => ksum_cons p sep _)
  have e2 : ksum sep (fun i a => ksum (p :: sep) (fun j b => x i a * L i j a b * y j b)) =
      ksum sep (fun i a => rsum p.2 (fun b => x i a * L i p.1 a b * y p.1 b) +
        ksum sep (fun j b => x i a * L i j a b * y j b)) :=
    ksum_congr (fun q _ a _ => ksum_cons p sep _)
  rw [e1, e2, rsum_add, ksum_add]

theorem linForm_cons (p : String × ℕ) (sep : List (String × ℕ))
    (e : String → ℕ → F) (y : VectorConfig F) :
    linForm (p :: sep) e y =
      rsum p.2 (fun b => e p.1 b * y p.1 b) + ksum sep (fun j b => e j b * y j b) :=
  ksum_cons p sep _

theorem residualFactor_infoL (fs : List (LinearFactor F)) (key : String) (d : ℕ)
    (Minv : ℕ → ℕ → F) :
    (residualFactor (combineList fs key) key d Minv).infoL = fun i j a b =>
      if memCoord (sepPairs fs key) i a ∧ memCoord (sepPairs fs key) j b then
        (combineList fs key).infoL i j a b -
          rsum d (fun p => rsum d (fun q =>
            (combineList fs key).infoL i key a p * Minv p q * (combineList fs key).infoL key j q b))
      else 0 := rfl

theorem residualFactor_infoe (fs : List (LinearFactor F)) (key : String) (d : ℕ)
    (Minv : ℕ → ℕ → F) :
    (residualFactor (combineList fs key) key d Minv).infoe = fun i a =>
      if memCoord (sepPairs fs key) i a then
        (combineList fs key).infoe i a -
          rsum d (fun p => rsum d (fun q =>
            (combineList fs key).infoL i key a p * Minv p q * (combineList fs key).infoe key q))
      else 0 := rfl

theorem condMean_mkConditional (fs : List (LinearFactor F)) (key : String)
    (Minv : ℕ → ℕ → F) (x : VectorConfig F) (a : ℕ) :
    condMean (mkConditional (combineList fs key) key Minv) x a =
      rsum (dimLookup fs key) (fun c => Minv a c *
        ((combineList fs key).infoe key c -
          ksum (sepPairs fs key) (fun j e => (combineList fs key).infoL key j c e * x j e))) := rfl

theorem factorGrad_residual_eq {fs : List (LinearFactor F)} {key : String} {Minv : ℕ → ℕ → F}
    (hwfts : ∀ f ∈ fs, FactorWF f)
    (hM : IsInvPair (dimLookup fs key) (pivotBlock (combineList fs key) key) Minv)
    (x y : VectorConfig F)
    (hfix : ∀ a, x key a = condMean (mkConditional (combineList fs key) key Minv) x a) :
    factorGrad (combineList fs key) x y =
      factorGrad (residualFactor (combineList fs key) key (dimLookup fs key) Minv) x y := by
  have hMsymm : ∀ a < dimLookup fs key, ∀ b < dimLookup fs key, Minv a b = Minv b a :=
    inv_symm (pivotBlock_symm key hwfts) hM
  have hsymm : ∀ i j a b, (combineList fs key).infoL i j a b = (combineList fs key).infoL j i b a :=
    jointL_symm key hwfts
  have hfix2 : ∀ a < dimLookup fs key, x key a =
      rsum (dimLookup fs key) (fun c => Minv a c *
        ((combineList fs key).infoe key c -
          ksum (sepPairs fs key) (fun j2 e => (combineList fs key).infoL key j2 c e * x j2 e))) :=
    fun a _ => by rw [hfix a, condMean_mkConditional]
  have hL : factorGrad (combineList fs key) x y =
      (rsum (dimLookup fs key) (fun a => rsum (dimLookup fs key) (fun b =>
        x key a * (combineList fs key).infoL key key a b * y key b)) +
       rsum (dimLookup fs key) (fun a => ksum (sepPairs fs key) (fun j b =>
        x key a * (combineList fs key).infoL key j a b * y j b)) +
       (ksum (sepPairs fs key) (fun i a => rsum (dimLookup fs key) (fun b =>
        x i a * (combineList fs key).infoL i key a b * y key b)) +
        ksum (sepPairs fs key) (fun i a => ksum (sepPairs fs key) (fun j b =>
        x i a * (combineList fs key).infoL i j a b * y j b)))) -
      (rsum (dimLookup fs key) (fun b => (combineList fs key).infoe key b * y key b) +
       ksum (sepPairs fs key) (fun j b => (combineList fs key).infoe j b * y j b)) := by
    unfold factorGrad
    rw [combineList_keys, quadForm_cons, linForm_cons]
  have hRq : quadForm (residualFactor (combineList fs key) key (dimLookup fs key) Minv).keys
      (residualFactor (combineList fs key) key (dimLookup fs key) Minv).infoL x y =
      ksum (sepPairs fs key) (fun i a => ksum (sepPairs fs key) (fun j b => x i a *
        ((combineList fs key).infoL i j a b -
          rsum (dimLookup fs key) (fun p => rsum (dimLookup fs key) (fun q =>
            (combineList fs key).infoL i key a p * Minv p q *
              (combineList fs key).infoL key j q b))) * y j b)) := by
    rw [residualFactor_keys, residualFactor_infoL]
    unfold quadForm
    refine ksum_congr (fun p hp a ha => ksum_congr (fun q hq b hb => ?_))
    have hma : memCoord (sepPairs fs key) p.1 a := ⟨p, hp, rfl, ha⟩
    have hmb : memCoord (sepPairs fs key) q.1 b := ⟨q, hq, rfl, hb⟩
    dsimp only
    rw [if_pos (And.intro hma hmb)]
  have hRl : linForm (residualFactor (combineList fs key) key (dimLookup fs key) Minv).keys
      (residualFactor (combineList fs key) key (dimLookup fs key) Minv).infoe y =
      ksum (sepPairs fs key) (fun j b => ((combineList fs key).infoe j b -
        rsum (dimLookup fs key) (fun p => rsum (dimLookup fs key) (fun q =>
          (combineList fs key).infoL j key b p * Minv p q *
            (combineList fs key).infoe key q))) * y j b) := by
    rw [residualFactor_keys, residualFactor_infoe]
    unfold linForm
    refine ksum_congr (fun p hp b hb => ?_)
    have hmb : memCoord (sepPairs fs key) p.1 b := ⟨p, hp, rfl, hb⟩
    dsimp only
    rw [if_pos hmb]
  have hcore := step_grad_core (dimLookup fs key) key (sepPairs fs key)
    (combineList fs key).infoL (combineList fs key).infoe Minv x y hM hMsymm hsymm hfix2
  rw [hL]
  unfold factorGrad
  rw [hRq, hRl]
  linear_combination hcore

theorem factorGrad_sum_touching {fs : List (LinearFactor F)} {key : String}
    (hwfts : ∀ f ∈ fs, FactorWF f) (hcons : DimConsistent (fs.flatMap LinearFactor.keys))
    (x y : VectorConfig F) :
    ((fs.map (fun f => factorGrad f x y))).sum = factorGrad (combineList fs key) x y := by
  have hext : ∀ f ∈ fs, factorGrad f x y =
      quadForm (combineList fs key).keys f.infoL x y -
        linForm (combineList fs key).keys f.infoe y := by
    intro f hf
    have hsub : ∀ p ∈ f.keys, p ∈ (combineList fs key).keys :=
      fun p hp => pair_mem_jointKeys hcons p (List.mem_flatMap.mpr ⟨f, hf, hp⟩)
    unfold factorGrad
    rw [quadForm_extend (hwfts f hf).1 (jointKeys_nodup fs key) hsub ((hwfts f hf).2.2.1) x y,
      linForm_extend (hwfts f hf).1 (jointKeys_nodup fs key) hsub ((hwfts f hf).2.2.2) y]
  rw [List.map_congr_left hext, listSum_map_sub]
  unfold factorGrad
  rw [← quadForm_sumL, ← linForm_sumE]
  have h1 : quadForm (combineList fs key).keys
      (fun i j a b => (fs.map (fun f => f.infoL i j a b)).sum) x y =
      quadForm (combineList fs key).keys (combineList fs key).infoL x y := by
    rw [combineList_infoL]
  have h2 : linForm (combineList fs key).keys
      (fun j b => (fs.map (fun f => f.infoe j b)).sum) y =
      linForm (combineList fs key).keys (combineList fs key).infoe y := by
    rw [combineList_infoe]
  rw [h1, h2]

theorem gradAt_elim_one {g : LinearFactorGraph F} {key : String}
    {cg : ConditionalGaussian F} {g1 : LinearFactorGraph F} {x : VectorConfig F}
    (hwf : GraphWF g) (h : g.eliminate_one key = .ok (cg, g1))
    (hfix : ∀ a, x cg.key a = condMean cg x a) (y : VectorConfig F) :
    gradAt g x y = gradAt g1 x y := by
  obtain ⟨hne, Minv, hpi, hcg, hg1⟩ := eliminate_one_ok_iff.mp h
  have hM := pivotInverse_isInv hpi
  have hfix2 : ∀ a, x key a =
      condMean (mkConditional (combineList (touching g key) key) key Minv) x a := by
    intro a
    have h2 := hfix a
    rw [hcg] at h2
    exact h2
  unfold gradAt
  rw [graph_split g key (fun f => factorGrad f x y), hg1, List.map_append, List.sum_append]
  rw [factorGrad_sum_touching (touching_wf hwf key) (touching_cons hwf key) x y]
  rw [factorGrad_residual_eq (touching_wf hwf key) hM x y hfix2]
  simp [add_comm]

theorem gradAt_eliminateSeq {g : LinearFactorGraph F} {ord : List String}
    {cbn : List (ConditionalGaussian F)} {g' : LinearFactorGraph F} {x : VectorConfig F}
    (hwf : GraphWF g) (h : eliminateSeq g ord = .ok (cbn, g'))
    (hfix : ∀ cg ∈ cbn, ∀ a, x cg.key a = condMean cg x a) (y : VectorConfig F) :
    gradAt g x y = gradAt g' x y := by
  induction ord generalizing g cbn with
  | nil =>
    simp only [eliminateSeq] at h
    injection h with h2
    injection h2 with h3 h4
    rw [h4]
  | cons k ks ih =>
    simp only [eliminateSeq] at h
    split at h
    · exact Except.noConfusion h
    · rename_i cg0 gmid h1
      split at h
      · exact Except.noConfusion h
      · rename_i cbn2 g2 h2
        injection h with h3
        injection h3 with h4 h5
        rw [h5] at h2
        have hfix0 : ∀ a, x cg0.key a = condMean cg0 x a :=
          fun a => hfix cg0 (h4 ▸ List.mem_cons_self cg0 cbn2) a
        have hfixrest : ∀ cg ∈ cbn2, ∀ a, x cg.key a = condMean cg x a :=
          fun cg hcg a => hfix cg (h4 ▸ List.mem_cons_of_mem cg0 hcg) a
        rw [gradAt_elim_one hwf h1 hfix0 y]
        exact ih (graphWF_elim_one hwf h1) h2 hfixrest

theorem gradAt_no_vars {g : LinearFactorGraph F} {x y : VectorConfig F}
    (h : varKeys g = []) : gradAt g x y = 0 := by
  have h1 : g.factors.flatMap LinearFactor.keyNames = [] := dedupBy_id_eq_nil h
  rw [List.flatMap_eq_nil_iff] at h1
  unfold gradAt
  refine List.sum_eq_zero (fun v hv => ?_)
  obtain ⟨f, hf, rfl⟩ := List.mem_map.mp hv
  have hkeys : f.keys = [] := by
    have h2 := h1 f hf
    unfold LinearFactor.keyNames at h2
    exact List.map_eq_nil_iff.mp h2
  unfold factorGrad quadForm linForm
  rw [hkeys, ksum_nil, ksum_nil, sub_zero]

end StepWrapper

section BackSubFix


theorem condMean_congr {cg : ConditionalGaussian F} {x x' : VectorConfig F}
    (h : ∀ p ∈ cg.parents, ∀ c, x p.1 c = x' p.1 c) (a : ℕ) :
    condMean cg x a = condMean cg x' a := by
  unfold condMean
  refine rsum_congr (fun b _ => ?_)
  have h2 : ksum cg.parents (fun j c => cg.S b j c * x j c) =
      ksum cg.parents (fun j c => cg.S b j c * x' j c) :=
    ksum_congr (fun p hp c _ => by rw [h p hp c])
  rw [h2]

theorem chainInv_parents {cbn : List (ConditionalGaussian F)} (h : ChainInv cbn) :
    ∀ cg ∈ cbn, ∀ p ∈ cg.parents, p.1 ∈ cbn.map ConditionalGaussian.key := by
  induction cbn with
  | nil => intro cg hcg; exact absurd hcg (List.not_mem_nil cg)
  | cons cg0 rest ih =>
    obtain ⟨-, hp0, hrest⟩ := h
    intro cg hcg p hp
    rcases List.mem_cons.mp hcg with rfl | hcgr
    · exact List.mem_cons_of_mem _ (hp0 p hp)
    · exact List.mem_cons_of_mem _ (ih hrest cg hcgr p hp)

theorem backSubstitute_cons (cg : ConditionalGaussian F)
    (rest : List (ConditionalGaussian F)) :
    backSubstitute (cg :: rest) =
      updateKey (backSubstitute rest) cg.key
        (fun a => condMean cg (backSubstitute rest) a) := rfl

theorem backSub_fixpoint {cbn : List (ConditionalGaussian F)} (h : ChainInv cbn) :
    ∀ cg ∈ cbn, ∀ a, backSubstitute cbn cg.key a = condMean cg (backSubstitute cbn) a := by
  induction cbn with
  | nil => intro cg hcg; exact absurd hcg (List.not_mem_nil cg)
  | cons cg0 rest ih =>
    obtain ⟨hk0, hp0, hrest⟩ := h
    intro cg hcg a
    rw [backSubstitute_cons]
    rcases List.mem_cons.mp hcg with hceq | hcgr
    · rw [hceq]
      have h1 : updateKey (backSubstitute rest) cg0.key
          (fun a2 => condMean cg0 (backSubstitute rest) a2) cg0.key a =
          condMean cg0 (backSubstitute rest) a := by
        unfold updateKey
        rw [if_pos rfl]
      rw [h1]
      refine condMean_congr (fun p hp c => ?_) a
      have hne : p.1 ≠ cg0.key := fun hc => hk0 (hc ▸ hp0 p hp)
      unfold updateKey
      rw [if_neg hne]
    · have hkey_ne : cg.key ≠ cg0.key := by
        intro hc
        exact hk0 (hc ▸ List.mem_map_of_mem ConditionalGaussian.key hcgr)
      have h1 : updateKey (backSubstitute rest) cg0.key
          (fun a2 => condMean cg0 (backSubstitute rest) a2) cg.key a =
          backSubstitute rest cg.key a := by
        unfold updateKey
        rw [if_neg hkey_ne]
      rw [h1, ih hrest cg hcgr a]
      refine condMean_congr (fun p hp c => ?_) a
      have hp1 : p.1 ∈ rest.map ConditionalGaussian.key := chainInv_parents hrest cg hcgr p hp
      have hne : p.1 ≠ cg0.key := fun hc => hk0 (hc ▸ hp1)
      unfold updateKey
      rw [if_neg hne]

theorem chainInv_of_run {g : LinearFactorGraph F} {ord : List String}
    {cbn : List (ConditionalGaussian F)} {g' : LinearFactorGraph F}
    (hnd : ord.Nodup) (hcov : covers g ord) (h : eliminateSeq g ord = .ok (cbn, g')) :
    ChainInv cbn := by
  induction ord generalizing g cbn with
  | nil =>
    simp only [eliminateSeq] at h
    injection h with h2
    injection h2 with h3 h4
    rw [← h3]
    exact trivial
  | cons k ks ih =>
    simp only [eliminateSeq] at h
    split at h
    · exact Except.noConfusion h
    · rename_i cg0 gmid h1
      split at h
      · exact Except.noConfusion h
      · rename_i cbn2 g2 h2
        injection h with h3
        injection h3 with h4 h5
        rw [h5] at h2
        obtain ⟨hne, Minv, hpi, hcg, hg1⟩ := eliminate_one_ok_iff.mp h1
        have hkeys2 : cbn2.map ConditionalGaussian.key = ks := eliminateSeq_keys h2
        have hcovmid : covers gmid ks := by
          intro k2 hk2
          obtain ⟨hv, hne2⟩ := (varKeys_elim_one h1 k2).mp hk2
          rcases List.mem_cons.mp (hcov k2 hv) with hc | hc
          · exact absurd hc hne2
          · exact hc
        rw [← h4]
        refine ⟨?_, ?_, ih hnd.of_cons hcovmid h2⟩
        · rw [hkeys2]
          have hkey : cg0.key = k := by rw [hcg]; rfl
          rw [hkey]
          exact (List.nodup_cons.mp hnd).1
        · intro p hp
          rw [hkeys2]
          have hpar : cg0.parents = sepPairs (touching g k) k := by rw [hcg]; rfl
          rw [hpar] at hp
          have h6 := List.mem_filter.mp (dedupBy_subset Prod.fst [] _ p hp)
          obtain ⟨f, hf, hpf⟩ := List.mem_flatMap.mp h6.1
          have h7 : p.1 ≠ k := by
            have := h6.2
            simpa using this
          have h8 : p.1 ∈ varKeys g :=
            mem_varKeys.mpr ⟨f, (mem_touching.mp hf).1,
              List.mem_map_of_mem Prod.fst hpf⟩
          rcases List.mem_cons.mp (hcov p.1 h8) with hc | hc
          · exact absurd hc h7
          · exact hc

theorem optimize_ok {g : LinearFactorGraph F} {ord : List String}
    {xh : VectorConfig F} {g' : LinearFactorGraph F}
    (h : g.optimize ord = .ok (xh, g')) :
    covers g ord ∧ ∃ cbn, eliminateSeq g ord = .ok (cbn, g') ∧ xh = backSubstitute cbn := by
  unfold LinearFactorGraph.optimize at h
  by_cases hc : covers g ord
  · rw [if_pos hc] at h
    split at h
    · exact Except.noConfusion h
    · rename_i cbn g2 heq
      injection h with h2
      injection h2 with h3 h4
      exact ⟨hc, cbn, by rw [heq, h4], h3.symm⟩
  · rw [if_neg hc] at h
    exact Except.noConfusion h

theorem optimize_grad_zero {g : LinearFactorGraph F} {ord : List String}
    {xh : VectorConfig F} {g' : LinearFactorGraph F}
    (hwf : GraphWF g) (hnd : ord.Nodup) (h : g.optimize ord = .ok (xh, g'))
    (y : VectorConfig F) : gradAt g xh y = 0 := by
  obtain ⟨hcov, cbn, hseq, hxh⟩ := optimize_ok h
  have hchain := chainInv_of_run hnd hcov hseq
  have hfix : ∀ cg ∈ cbn, ∀ a, xh cg.key a = condMean cg xh a := by
    rw [hxh]
    exact backSub_fixpoint hchain
  rw [gradAt_eliminateSeq hwf hseq hfix y]
  have hnil : varKeys g' = [] := by
    rw [List.eq_nil_iff_forall_not_mem]
    intro k hk
    obtain ⟨hv, hno⟩ := (eliminateSeq_varKeys hseq k).mp hk
    exact hno (hcov k hv)
  exact gradAt_no_vars hnil

end BackSubFix

section Assembly


theorem rsum_colDecode (cds : List (String × ℕ)) (u : String → ℕ → F) :
    rsum ((cds.map Prod.snd).sum) (fun c =>
      match colDecode cds c with
      | some (k2, i2) => u k2 i2
      | none => 0) = ksum cds u := by
  induction cds with
  | nil => rfl
  | cons p rest ih =>
    rw [List.map_cons, List.sum_cons, rsum_split, ksum_cons]
    have h1 : rsum p.2 (fun c =>
        match colDecode (p :: rest) c with
        | some (k2, i2) => u k2 i2
        | none => 0) = rsum p.2 (fun c => u p.1 c) :=
      rsum_congr (fun c hc => by
        simp only [colDecode]
        rw [if_pos hc])
    have h2 : rsum ((rest.map Prod.snd).sum) (fun i =>
        match colDecode (p :: rest) (p.2 + i) with
        | some (k2, i2) => u k2 i2
        | none => 0) = rsum ((rest.map Prod.snd).sum) (fun i =>
        match colDecode rest i with
        | some (k2, i2) => u k2 i2
        | none => 0) :=
      rsum_congr (fun i _ => by
        simp only [colDecode]
        rw [if_neg (Nat.not_lt.mpr (Nat.le_add_right p.2 i)), Nat.add_sub_cancel_left])
    rw [h1, h2, ih]

theorem colDecode_some {cds : List (String × ℕ)} {c : ℕ}
    (hc : c < (cds.map Prod.snd).sum) :
    ∃ k i d, colDecode cds c = some (k, i) ∧ (k, d) ∈ cds ∧ i < d := by
  induction cds generalizing c with
  | nil => simp at hc
  | cons p rest ih =>
    by_cases h : c < p.2
    · refine ⟨p.1, c, p.2, ?_, ?_, h⟩
      · simp only [colDecode]
        rw [if_pos h]
      · rw [Prod.mk.eta]
        exact List.mem_cons_self p rest
    · have hc2 : c - p.2 < (rest.map Prod.snd).sum := by
        rw [List.map_cons, List.sum_cons] at hc
        omega
      obtain ⟨k, i, d, h1, h2, h3⟩ := ih hc2
      refine ⟨k, i, d, ?_, List.mem_cons_of_mem p h2, h3⟩
      simp only [colDecode]
      rw [if_neg h]
      exact h1

theorem rsum_rowSplit (fs : List (LinearFactor F)) (cds : List (String × ℕ))
    (xh : VectorConfig F) (k : String) (a : ℕ) :
    rsum ((fs.map LinearFactor.mRows).sum) (fun r =>
      rowEntryA fs r k a *
        (ksum cds (fun k2 i => rowEntryA fs r k2 i * xh k2 i) - rowEntryB fs r)) =
    (fs.map (fun f => rsum f.mRows (fun r =>
      f.rowA r k a *
        (ksum cds (fun k2 i => f.rowA r k2 i * xh k2 i) - f.rowB r)))).sum := by
  induction fs with
  | nil => rfl
  | cons f fs ih =>
    rw [List.map_cons, List.sum_cons, rsum_split, List.map_cons, List.sum_cons]
    have h1 : rsum f.mRows (fun r =>
        rowEntryA (f :: fs) r k a *
          (ksum cds (fun k2 i => rowEntryA (f :: fs) r k2 i * xh k2 i) -
            rowEntryB (f :: fs) r)) =
        rsum f.mRows (fun r =>
          f.rowA r k a *
            (ksum cds (fun k2 i => f.rowA r k2 i * xh k2 i) - f.rowB r)) := by
      refine rsum_congr (fun r hr => ?_)
      have houtA : rowEntryA (f :: fs) r k a = f.rowA r k a := by
        simp only [rowEntryA]
        rw [if_pos hr]
      have houtB : rowEntryB (f :: fs) r = f.rowB r := by
        simp only [rowEntryB]
        rw [if_pos hr]
      have h3 : ksum cds (fun k2 i => rowEntryA (f :: fs) r k2 i * xh k2 i) =
          ksum cds (fun k2 i => f.rowA r k2 i * xh k2 i) := by
        refine ksum_congr (fun q hq i2 hi2 => ?_)
        have h4 : rowEntryA (f :: fs) r q.1 i2 = f.rowA r q.1 i2 := by
          simp only [rowEntryA]
          rw [if_pos hr]
        rw [h4]
      rw [houtA, houtB, h3]
    have h2 : rsum ((fs.map LinearFactor.mRows).sum) (fun r =>
        rowEntryA (f :: fs) (f.mRows + r) k a *
          (ksum cds (fun k2 i => rowEntryA (f :: fs) (f.mRows + r) k2 i * xh k2 i) -
            rowEntryB (f :: fs) (f.mRows + r))) =
        rsum ((fs.map LinearFactor.mRows).sum) (fun r =>
          rowEntryA fs r k a *
            (ksum cds (fun k2 i => rowEntryA fs r k2 i * xh k2 i) - rowEntryB fs r)) := by
      refine rsum_congr (fun r _ => ?_)
      have hnot : ¬ (f.mRows + r < f.mRows) := Nat.not_lt.mpr (Nat.le_add_right f.mRows r)
      have houtA : rowEntryA (f :: fs) (f.mRows + r) k a = rowEntryA fs r k a := by
        simp only [rowEntryA]
        rw [if_neg hnot, Nat.add_sub_cancel_left]
      have houtB : rowEntryB (f :: fs) (f.mRows + r) = rowEntryB fs r := by
        simp only [rowEntryB]
        rw [if_neg hnot, Nat.add_sub_cancel_left]
      have h3 : ksum cds (fun k2 i => rowEntryA (f :: fs) (f.mRows + r) k2 i * xh k2 i) =
          ksum cds (fun k2 i => rowEntryA fs r k2 i * xh k2 i) := by
        refine ksum_congr (fun q hq i2 hi2 => ?_)
        have h4 : rowEntryA (f :: fs) (f.mRows + r) q.1 i2 = rowEntryA fs r q.1 i2 := by
          simp only [rowEntryA]
          rw [if_neg hnot, Nat.add_sub_cancel_left]
        rw [h4]
      rw [houtA, houtB, h3]
    rw [h1, h2, ih]

theorem perFactor_grad (ks : List (String × ℕ)) (m : ℕ) (A : ℕ → String → ℕ → F)
    (b : ℕ → F) (cds : List (String × ℕ)) (xh : VectorConfig F) (k : String) (a : ℕ)
    (hsupp : ∀ r k2 i, ¬ memCoord ks k2 i → A r k2 i = 0)
    (hnodK : (ks.map Prod.fst).Nodup) (hnodC : (cds.map Prod.fst).Nodup)
    (hsub : ∀ p ∈ ks, p ∈ cds) :
    rsum m (fun r => A r k a * (ksum cds (fun k2 i => A r k2 i * xh k2 i) - b r)) =
      factorGrad (LinearFactor.rows ks m A b) xh (deltaV k a) := by
  have hstep0 : rsum m (fun r => A r k a *
      (ksum cds (fun k2 i => A r k2 i * xh k2 i) - b r)) =
      rsum m (fun r => A r k a * (ksum ks (fun k2 i => A r k2 i * xh k2 i) - b r)) := by
    refine rsum_congr (fun r _ => ?_)
    have hr2 : ksum cds (fun k2 i => A r k2 i * xh k2 i) =
        ksum ks (fun k2 i => A r k2 i * xh k2 i) :=
      ksum_extend hnodK hnodC hsub (fun i a2 hni => by rw [hsupp r i a2 hni, zero_mul])
    rw [hr2]
  rw [hstep0]
  show rsum m (fun r => A r k a * (ksum ks (fun k2 i => A r k2 i * xh k2 i) - b r)) =
    quadForm ks (fun i j a2 b2 => rsum m (fun r => A r i a2 * A r j b2)) xh (deltaV k a) -
    linForm ks (fun i a2 => rsum m (fun r => A r i a2 * b r)) (deltaV k a)
  unfold quadForm linForm
  have hlin : ksum ks (fun j b2 => rsum m (fun r => A r j b2 * b r) * deltaV k a j b2) =
      if memCoord ks k a then rsum m (fun r => A r k a * b r) else 0 :=
    ksum_deltaV_mul hnodK k a (fun j b2 => rsum m (fun r => A r j b2 * b r))
  have hquad1 : ksum ks (fun i a2 => ksum ks (fun j b2 =>
      xh i a2 * rsum m (fun r => A r i a2 * A r j b2) * deltaV k a j b2)) =
      ksum ks (fun i a2 =>
        if memCoord ks k a then xh i a2 * rsum m (fun r => A r i a2 * A r k a) else 0) :=
    ksum_congr (fun p hp a2 ha2 =>
      ksum_deltaV_mul hnodK k a (fun j b2 => xh p.1 a2 * rsum m (fun r => A r p.1 a2 * A r j b2)))
  rw [hquad1, hlin]
  by_cases hmc : memCoord ks k a
  · have hq2 : ksum ks (fun i a2 =>
        if memCoord ks k a then xh i a2 * rsum m (fun r => A r i a2 * A r k a) else 0) =
        ksum ks (fun i a2 => xh i a2 * rsum m (fun r => A r i a2 * A r k a)) :=
      ksum_congr (fun p hp a2 ha2 => if_pos hmc)
    rw [hq2, if_pos hmc]
    have hL : rsum m (fun r => A r k a * (ksum ks (fun k2 i => A r k2 i * xh k2 i) - b r)) =
        rsum m (fun r => A r k a * ksum ks (fun k2 i => A r k2 i * xh k2 i)) -
          rsum m (fun r => A r k a * b r) := by
      rw [← rsum_sub]
      exact rsum_congr (fun r _ => mul_sub _ _ _)
    rw [hL]
    have hswap : rsum m (fun r => A r k a * ksum ks (fun k2 i => A r k2 i * xh k2 i)) =
        ksum ks (fun k2 i => xh k2 i * rsum m (fun r => A r k2 i * A r k a)) := by
      have h1 : rsum m (fun r => A r k a * ksum ks (fun k2 i => A r k2 i * xh k2 i)) =
          rsum m (fun r => ksum ks (fun k2 i => A r k a * (A r k2 i * xh k2 i))) :=
        rsum_congr (fun r _ => ksum_mul_left ks (A r k a) (fun k2 i => A r k2 i * xh k2 i))
      rw [h1, ← ksum_rsum_swap]
      refine ksum_congr (fun p hp i hi => ?_)
      rw [rsum_mul_left]
      exact rsum_congr (fun r _ => by ring)
    rw [hswap]
  · have hq2 : ksum ks (fun i a2 =>
        if memCoord ks k a then xh i a2 * rsum m (fun r => A r i a2 * A r k a) else 0) = 0 :=
      ksum_eq_zero (fun p hp a2 ha2 => if_neg hmc)
    rw [hq2, if_neg hmc, sub_zero]
    refine rsum_eq_zero (fun r _ => ?_)
    rw [hsupp r k a hmc, zero_mul]

theorem colKeyDims_fst (g : LinearFactorGraph F) (ord : List String) :
    (colKeyDims g ord).map Prod.fst = ord := by
  unfold colKeyDims
  induction ord with
  | nil => rfl
  | cons k ks ih => rw [List.map_cons, List.map_cons, ih]

/-- C5.  A configuration returned by a successful `optimize(ordering)` call
satisfies the normal equations `Aᵀ A x = Aᵀ b` of the assembled system
`(A, b) = matrix(ordering)`: for every assembled column `c`, the residual
`A x − b` is orthogonal to column `c` of `A` (exactly, in the
exact-arithmetic model of floating point), i.e. `optimize` computes the
least-squares solution of the original stacked linear system. -/
theorem claim_C5 {g : LinearFactorGraph F} {ord : List String}
    (hwf : GraphWF g) (hrows : ∀ f ∈ g.factors, RowsWF f) (hnd : ord.Nodup) :
    ∀ xh g2, g.optimize ord = .ok (xh, g2) →
    ∀ c, c < totalCols g ord →
    rsum (totalRows g) (fun r => (g.matrix ord).1 r c *
      (rsum (totalCols g ord) (fun c2 => (g.matrix ord).1 r c2 * flatVec g ord xh c2) -
        (g.matrix ord).2 r)) = 0 := by
  intro xh g2 hopt c hc
  have hcov : covers g ord := (optimize_ok hopt).1
  obtain ⟨k, i, d, hdec, hmem, hid⟩ := colDecode_some hc
  have hA : ∀ r c2, (g.matrix ord).1 r c2 =
      match colDecode (colKeyDims g ord) c2 with
      | some (k2, i2) => rowEntryA g.factors r k2 i2
      | none => 0 := fun r c2 => rfl
  have hB : ∀ r, (g.matrix ord).2 r = rowEntryB g.factors r := fun r => rfl
  have hinner : ∀ r, rsum (totalCols g ord)
      (fun c2 => (g.matrix ord).1 r c2 * flatVec g ord xh c2) =
      ksum (colKeyDims g ord) (fun k2 i2 => rowEntryA g.factors r k2 i2 * xh k2 i2) := by
    intro r
    have h1 : rsum (totalCols g ord)
        (fun c2 => (g.matrix ord).1 r c2 * flatVec g ord xh c2) =
        rsum (((colKeyDims g ord).map Prod.snd).sum) (fun c2 =>
          match colDecode (colKeyDims g ord) c2 with
          | some (k2, i2) => rowEntryA g.factors r k2 i2 * xh k2 i2
          | none => 0) := by
      refine rsum_congr (fun c2 _ => ?_)
      rw [hA r c2]
      unfold flatVec
      cases hd2 : colDecode (colKeyDims g ord) c2 with
      | none => simp
      | some p =>
        obtain ⟨k2, i2⟩ := p
        rfl
    rw [h1]
    exact rsum_colDecode (colKeyDims g ord)
      (fun k2 i2 => rowEntryA g.factors r k2 i2 * xh k2 i2)
  have hL1 : rsum (totalRows g) (fun r => (g.matrix ord).1 r c *
      (rsum (totalCols g ord) (fun c2 => (g.matrix ord).1 r c2 * flatVec g ord xh c2) -
        (g.matrix ord).2 r)) =
      rsum ((g.factors.map LinearFactor.mRows).sum) (fun r =>
        rowEntryA g.factors r k i *
          (ksum (colKeyDims g ord) (fun k2 i2 => rowEntryA g.factors r k2 i2 * xh k2 i2) -
            rowEntryB g.factors r)) := by
    refine rsum_congr (fun r _ => ?_)
    rw [hA r c, hdec]
    dsimp only
    rw [hinner r, hB r]
  rw [hL1, rsum_rowSplit]
  have hnodC : ((colKeyDims g ord).map Prod.fst).Nodup := by
    rw [colKeyDims_fst]
    exact hnd
  have hmap : ∀ f ∈ g.factors,
      rsum f.mRows (fun r => f.rowA r k i *
        (ksum (colKeyDims g ord) (fun k2 i2 => f.rowA r k2 i2 * xh k2 i2) - f.rowB r)) =
      factorGrad f xh (deltaV k i) := by
    intro f hf
    have hsub : ∀ p ∈ f.keys, p ∈ colKeyDims g ord := by
      intro p hp
      have h5 : p.1 ∈ varKeys g :=
        mem_varKeys.mpr ⟨f, hf, List.mem_map_of_mem Prod.fst hp⟩
      have h6 : p.1 ∈ ord := hcov p.1 h5
      have h7 : dimLookup g.factors p.1 = p.2 :=
        dimLookup_eq_of_mem hwf.2 (List.mem_flatMap.mpr ⟨f, hf, hp⟩)
      have h8 : (p.1, dimLookup g.factors p.1) ∈ colKeyDims g ord :=
        List.mem_map.mpr ⟨p.1, h6, rfl⟩
      rw [h7, Prod.mk.eta] at h8
      exact h8
    have hnodK : (f.keys.map Prod.fst).Nodup := (hwf.1 f hf).1
    cases f with
    | rows ks m A b =>
      exact perFactor_grad ks m A b (colKeyDims g ord) xh k i (hrows _ hf) hnodK hnodC hsub
    | info ks L e cc => exact (hrows _ hf).elim
  rw [List.map_congr_left hmap]
  exact optimize_grad_zero hwf hnd hopt (deltaV k i)

end Assembly

section Witnesses


theorem claim_C1_witness :
    (gW.eliminate ["x"]).map (fun p => (p.1.map ConditionalGaussian.key, varKeys p.2, p.2.variables)) =
      .ok (["x"], [], .ok []) := by
  have hOk : isOkE (gW.eliminate ["x"]) = true := by decide
  cases hE : gW.eliminate ["x"] with
  | error er => rw [hE] at hOk; exact Bool.noConfusion hOk
  | ok pr =>
    obtain ⟨cbn, g'⟩ := pr
    obtain ⟨hkeys, hlen, hnil, hvar⟩ :=
      claim_C1 gW ["x"] (by decide) (by decide) (by decide) cbn g' hE
    simp only [Except.map]
    rw [hkeys, hnil, hvar]

theorem claim_C3_witness :
    ∃ cbn gf c1 g1 c2,
      g2W.eliminate (["x"] ++ ["y"]) = .ok (cbn, gf) ∧
      eliminate_partially g2W ["x"] = .ok (c1, g1) ∧
      g1.eliminate ["y"] = .ok (c2, gf) ∧ c1 ++ c2 = cbn ∧
      backSubstitute (c1 ++ c2) = backSubstitute cbn := by
  have hOk : isOkE (g2W.eliminate (["x"] ++ ["y"])) = true := by decide
  cases hE : g2W.eliminate (["x"] ++ ["y"]) with
  | error er => rw [hE] at hOk; exact Bool.noConfusion hOk
  | ok pr =>
    obtain ⟨cbn, gf⟩ := pr
    obtain ⟨c1, g1, c2, h1, h2, h3, h4⟩ := claim_C3 g2W ["x"] ["y"] cbn gf hE
    exact ⟨cbn, gf, c1, g1, c2, rfl, h1, h2, h3, h4⟩

theorem claim_C4_witness :
    Except.map (fun p => (((p.1.keys : List (String × ℕ)) : Multiset (String × ℕ)),
        p.1.energy (fun _ _ => 0)))
      (g2Wswap.combine_factors "x") =
    Except.map (fun p => (((p.1.keys : List (String × ℕ)) : Multiset (String × ℕ)),
        p.1.energy (fun _ _ => 0)))
      (g2W.combine_factors "x") :=
  claim_C4 g2W g2Wswap "x" (by decide) (List.Perm.swap fW fW2 []) (fun _ _ => 0)

theorem claim_C6_witness :
    gsingW.eliminate_one "x" = .error .SingularElimination := by
  refine claim_C6 gsingW "x" (by decide) ?_
  rintro M ⟨hMH, -⟩
  have hv : ∀ c, c < 2 → rsum 2
      (fun b => pivotBlock (combineList (touching gsingW "x") "x") "x" c b * vW b) = 0 := by
    decide
  have hd : dimLookup (touching gsingW "x") "x" = 2 := by decide
  rw [hd] at hMH
  have h1 : rsum 2 (fun b => idMat 0 b * vW b) = (1 : K) := by decide
  have h2 : rsum 2 (fun b => idMat 0 b * vW b) =
      rsum 2 (fun b => matMulB 2 M
        (pivotBlock (combineList (touching gsingW "x") "x") "x") 0 b * vW b) :=
    rsum_congr (fun b hb => by rw [hMH 0 (by decide) b hb])
  have h3 : rsum 2 (fun b => matMulB 2 M
        (pivotBlock (combineList (touching gsingW "x") "x") "x") 0 b * vW b) =
      rsum 2 (fun c => M 0 c * rsum 2
        (fun b => pivotBlock (combineList (touching gsingW "x") "x") "x" c b * vW b)) := by
    unfold matMulB
    have h3a : rsum 2 (fun b => rsum 2
        (fun c => M 0 c * pivotBlock (combineList (touching gsingW "x") "x") "x" c b) * vW b) =
        rsum 2 (fun b => rsum 2
          (fun c => M 0 c * pivotBlock (combineList (touching gsingW "x") "x") "x" c b * vW b)) :=
      rsum_congr (fun b _ => rsum_mul_right 2 (vW b) _)
    rw [h3a, rsum_swap]
    refine rsum_congr (fun c _ => ?_)
    rw [rsum_mul_left]
    refine rsum_congr (fun b _ => ?_)
    ring
  have h4 : rsum 2 (fun c => M 0 c * rsum 2
      (fun b => pivotBlock (combineList (touching gsingW "x") "x") "x" c b * vW b)) = 0 :=
    rsum_eq_zero (fun c hc => by rw [hv c hc, mul_zero])
  have hcontra : (1 : K) = 0 := by rw [← h1, h2, h3, h4]
  exact absurd hcontra (by decide)

theorem claim_C7_witness :
    ¬ covers gW [] ∧ gW.eliminate [] = .error .IncompleteOrdering :=
  ⟨by decide, (claim_C7 gW []).1 (by decide)⟩

theorem claim_C8_witness :
    gW.variables = .ok [("x", 1)] ∧
    (gW.add_priors 2).factors = gW.factors ++ [priorFactor 2 "x" 1] :=
  ⟨by decide, (claim_C8 gW 2 [("x", 1)] (by decide)).1⟩

/-- Witness for C5: on the concrete one-variable graph `gW` with ordering
`["x"]`, `optimize` succeeds and the returned configuration satisfies the
normal equations of the assembled system in column `0`. -/
theorem claim_C5_witness :
    Except.map (fun pr : VectorConfig K × LinearFactorGraph K =>
      rsum (totalRows gW) (fun r => (gW.matrix ["x"]).1 r 0 *
        (rsum (totalCols gW ["x"])
          (fun c2 => (gW.matrix ["x"]).1 r c2 * flatVec gW ["x"] pr.1 c2) -
          (gW.matrix ["x"]).2 r))) (gW.optimize ["x"]) = .ok 0 ∧
    0 < totalCols gW ["x"] := by
  have hrowsW : RowsWF fW := by
    intro r k i h
    exact if_neg (fun hc => h ⟨("x", 1), List.mem_cons_self _ _, hc.1.symm,
      by rw [hc.2.1]; exact Nat.zero_lt_one⟩)
  have hGW : GraphWF gW := by
    refine ⟨?_, by decide⟩
    intro f hf
    have hf2 : f ∈ [fW] := hf
    rw [List.mem_singleton] at hf2
    rw [hf2]
    exact rowsWF_factorWF (by decide) hrowsW
  have hrowsAll : ∀ f ∈ gW.factors, RowsWF f := by
    intro f hf
    have hf2 : f ∈ [fW] := hf
    rw [List.mem_singleton] at hf2
    rw [hf2]
    exact hrowsW
  have hndW : (["x"] : List String).Nodup := by decide
  refine ⟨?_, by decide⟩
  cases hE : gW.optimize ["x"] with
  | error e =>
    have hok : isOkE (gW.optimize ["x"]) = true := by decide
    rw [hE] at hok
    exact Bool.noConfusion hok
  | ok pr =>
    obtain ⟨xh, g2⟩ := pr
    have h0 := claim_C5 hGW hrowsAll hndW xh g2 hE 0 (by decide)
    simp only [Except.map]
    exact congrArg Except.ok h0

end Witnesses

end GtsamLin
